import Mathlib

/-!
# LWW element set of `phraniiac/crdt`

A shallow embedding of `crdt/clientmodel.go` (the last-writer-wins element set) and of
`crdt/model.go` (payloads, clients, applications and the server), followed by theorems about
the embedded operations.

Modelling conventions:

* a Go `string` is a `List Char` (`Str`); the separator and all digits are ASCII, so splitting
  and integer parsing behave the same on bytes and on characters;
* a Go `map[string]string` is an association list with pairwise distinct keys (`AList`);
  two maps are the same Go map when they agree on every key (`SameMap`);
* a run-time panic (index out of range, nil pointer) is the result `none`;
* a channel is its identity, a send is recorded as a `Delivery`; goroutines are not modelled,
  a listener loop is a function of the payloads that arrive on its channel;
* Go `int` is 64 bits wide, as on amd64 and arm64, and `strconv.Atoi` is modelled with the
  clamping of out-of-range values that the standard library documents.
-/

namespace Crdt

/-- A Go string. -/
abbrev Str := List Char

/-- A Go `map[string]string`. -/
abbrev GoMap := AList (fun _ : Str => Str)

/-- Two Go maps are equal when they hold the same value (or none) under every key. -/
def SameMap (m1 m2 : GoMap) : Prop := ∀ k : Str, m1.lookup k = m2.lookup k

/-! ## Standard-library functions used by the source -/

/-- Model of `strings.Index`: position of the first occurrence of `sep` in `s`. -/
def Index : Str → Str → Option Nat
  | [], sep => if sep = [] then some 0 else none
  | c :: cs, sep =>
    if sep.isPrefixOf (c :: cs) then some 0 else (Index cs sep).map (· + 1)

/-- Model of `strings.Contains`. -/
def Contains (s sep : Str) : Bool := (Index s sep).isSome

/-- The loop of `strings.genSplit` for a non-empty separator: cut at the first occurrence,
continue with what follows it. `n` bounds the number of cuts. -/
def genSplit : Nat → Str → Str → List Str
  | 0, s, _ => [s]
  | n + 1, s, sep =>
    match Index s sep with
    | none => [s]
    | some m => s.take m :: genSplit n (s.drop (m + sep.length)) sep

/-- Model of `strings.Split` for a non-empty separator. The number of cuts never exceeds
the length of the string. -/
def Split (s sep : Str) : List Str := genSplit s.length s sep

/-- Go slice indexing `xs[i]`; `none` is the out-of-range panic. -/
def index (xs : List Str) (i : Nat) : Option Str := xs.get? i

/-- Largest value of a 64-bit Go `int`. -/
def maxInt : Int := 2 ^ 63 - 1

/-- Largest value of a `uint64`. -/
def maxUint64 : Nat := 2 ^ 64 - 1

/-- Outcome of `strconv.ParseUint`. -/
inductive ParseResult where
  | ok (n : Nat)
  | syntaxErr
  | rangeErr
deriving DecidableEq, Repr

/-- The digit loop of `strconv.ParseUint(s, 10, 64)`: a non-digit is a syntax error, a value
above `maxUint64` a range error, reported as soon as the running value overflows. -/
def parseUintLoop : Str → Nat → ParseResult
  | [], n => ParseResult.ok n
  | c :: cs, n =>
    if c.isDigit then
      if n ≥ maxUint64 / 10 + 1 then ParseResult.rangeErr
      else if n * 10 + (c.toNat - 48) > maxUint64 then ParseResult.rangeErr
      else parseUintLoop cs (n * 10 + (c.toNat - 48))
    else ParseResult.syntaxErr

/-- Model of `strconv.ParseUint(s, 10, 64)`. -/
def ParseUint (s : Str) : ParseResult :=
  if s = [] then ParseResult.syntaxErr else parseUintLoop s 0

/-- The value `strconv.ParseInt(s, 10, 64)` returns once the sign is known: `0` on a syntax
error, the nearest representable value on a range error. -/
def parseIntSigned (neg : Bool) (s : Str) : Int :=
  match ParseUint s with
  | ParseResult.syntaxErr => 0
  | ParseResult.rangeErr => if neg then -(2 ^ 63) else maxInt
  | ParseResult.ok un =>
    if neg then (if un > 2 ^ 63 then -(2 ^ 63) else -(un : Int))
    else (if un ≥ 2 ^ 63 then maxInt else (un : Int))

/-- Model of `strconv.Atoi`, the error dropped as the source drops it. -/
def Atoi (s : Str) : Int :=
  match s with
  | [] => 0
  | c :: rest =>
    if c = '+' then parseIntSigned false rest
    else if c = '-' then parseIntSigned true rest
    else parseIntSigned false (c :: rest)

/-- The decimal digit `d` as a character. -/
def digitChar (d : Nat) : Char := Char.ofNat (48 + d)

/-- The digit loop of `strconv.FormatInt(u, 10)`: least significant digit first, prepended
to what is already written. -/
def formatBits : Nat → Nat → Str → Str
  | 0, _, acc => acc
  | fuel + 1, u, acc =>
    if u < 10 then digitChar u :: acc
    else formatBits fuel (u / 10) (digitChar (u % 10) :: acc)

/-- Model of `strconv.FormatInt(i, 10)`. -/
def FormatInt (i : Int) : Str :=
  if i < 0 then '-' :: formatBits (i.natAbs + 1) i.natAbs []
  else formatBits (i.toNat + 1) i.toNat []

/-! ## `crdt/clientmodel.go` -/

/-- Source: `var SEPARATOR = "####"`. -/
def SEPARATOR : Str := ['#', '#', '#', '#']

/-- Source: `var REMOVAL_VALUE = "-1_REMOVAL"`. -/
def REMOVAL_VALUE : Str := ['-', '1', '_', 'R', 'E', 'M', 'O', 'V', 'A', 'L']

/-- Source: `const ( ADD = iota; REMOVE; UPDATE )` of `crdt/model.go`. -/
def ADD : Int := 0

/-- Source: second constant of the `iota` block. -/
def REMOVE : Int := 1

/-- Source: third constant of the `iota` block. -/
def UPDATE : Int := 2

/-- Source: `type Payload struct` of `crdt/model.go`. -/
structure Payload where
  clientId : Str
  op : Int
  key : Str
  val : Str
deriving DecidableEq

/-- Source: `CreatePayload`. -/
def CreatePayload (key val : Str) (op : Int) (clientId : Str) : Payload :=
  { clientId := clientId, op := op, key := key, val := val }

/-- Source: `type LWWElementSet struct`. -/
structure LWWElementSet where
  InitialSet : GoMap
  addOperations : GoMap
  removeOperations : GoMap
deriving DecidableEq

/-- Source: `CreateLWWElementSet`. -/
def CreateLWWElementSet : LWWElementSet :=
  { InitialSet := ∅, addOperations := ∅, removeOperations := ∅ }

/-- Source: `CreateLWWElementSetWithInitial`. -/
def CreateLWWElementSetWithInitial (initialSet : GoMap) : LWWElementSet :=
  { InitialSet := initialSet, addOperations := ∅, removeOperations := ∅ }

/-- Source: `GetLatestValueTimestamp`. Both values are split and their second piece parsed;
the second value is returned only when its timestamp is strictly greater. -/
def GetLatestValueTimestamp (val1 val2 : Str) : Option Str :=
  match index (Split val1 SEPARATOR) 1 with
  | none => none
  | some ts1 =>
    match index (Split val2 SEPARATOR) 1 with
    | none => none
    | some ts2 => if Atoi ts2 > Atoi ts1 then some val2 else some val1

/-- Source: `LWWElementSet.UpsertElement`. -/
def UpsertElement (lww : LWWElementSet) (payload : Payload) : Option LWWElementSet :=
  match lww.addOperations.lookup payload.key with
  | some val2 =>
    match GetLatestValueTimestamp payload.val val2 with
    | none => none
    | some latest =>
      some { lww with addOperations := lww.addOperations.insert payload.key latest }
  | none => some { lww with addOperations := lww.addOperations.insert payload.key payload.val }

/-- Source: `LWWElementSet.RemoveElement`. The stored value is the removal marker, the
separator and the second piece of the payload value. -/
def RemoveElement (lww : LWWElementSet) (payload : Payload) : Option LWWElementSet :=
  match index (Split payload.val SEPARATOR) 1 with
  | none => none
  | some ts =>
    let val := REMOVAL_VALUE ++ SEPARATOR ++ ts
    match lww.removeOperations.lookup payload.key with
    | some val2 =>
      match GetLatestValueTimestamp val val2 with
      | none => none
      | some latest =>
        some { lww with removeOperations := lww.removeOperations.insert payload.key latest }
    | none => some { lww with removeOperations := lww.removeOperations.insert payload.key val }

/-- Body of the `range` loop of `ViewElements` for one entry of the add registry. -/
def viewStep (removeOperations : GoMap) (result : GoMap) (entry : Sigma fun _ : Str => Str) :
    Option GoMap :=
  match removeOperations.lookup entry.1 with
  | some val2 =>
    match GetLatestValueTimestamp entry.2 val2 with
    | none => none
    | some latest =>
      if latest = entry.2 then
        (index (Split entry.2 SEPARATOR) 0).map (fun v => result.insert entry.1 v)
      else some result
  | none => (index (Split entry.2 SEPARATOR) 0).map (fun v => result.insert entry.1 v)

/-- Source: `LWWElementSet.ViewElements`. -/
def ViewElements (lww : LWWElementSet) : Option GoMap :=
  lww.addOperations.entries.foldlM (viewStep lww.removeOperations) ∅

/-- The `switch payload.op` of `Client.MutateApplicationState`, `Client.ListenForUpdates`
and `Application.ListenToPayloads`: how a payload is applied to an element set. -/
def applyPayload (lww : LWWElementSet) (payload : Payload) : Option LWWElementSet :=
  if payload.op = ADD then UpsertElement lww payload
  else if payload.op = REMOVE then RemoveElement lww payload
  else if payload.op = UPDATE then UpsertElement lww payload
  else some lww

/-- A sequence of payloads applied one after the other; a panic stops the run. -/
def applyAll (lww : LWWElementSet) : List Payload → Option LWWElementSet
  | [] => some lww
  | p :: ps =>
    match applyPayload lww p with
    | none => none
    | some next => applyAll next ps

/-- The payload value the driver builds (`main.go`, `runManualSimulation`):
`value + SEPARATOR + strconv.FormatInt(timestamp, 10)`. -/
def encode (v : Str) (t : Nat) : Str := v ++ SEPARATOR ++ FormatInt (t : Int)

/-- The timestamp `GetLatestValueTimestamp` parses from a stored or submitted value: the
second piece of the split, read by `Atoi`. `none` when there is no second piece. -/
def timestampOf (val : Str) : Option Int := (index (Split val SEPARATOR) 1).map Atoi

/-- The value part of a stored value, as `ViewElements` extracts it: the first piece of the
split. -/
def valueOf (val : Str) : Option Str := index (Split val SEPARATOR) 0

/-- A payload value of the form `v####t`: `v` free of `#`, `t` the decimal form of a
non-negative integer. -/
def WellFormedValue (val : Str) : Prop := ∃ (v : Str) (t : Nat), '#' ∉ v ∧ val = encode v t

/-- A payload whose value is well formed. -/
def WellFormed (p : Payload) : Prop := WellFormedValue p.val

/-- A payload that the dispatch hands to `UpsertElement`. -/
def isUpsert (p : Payload) : Prop := p.op = ADD ∨ p.op = UPDATE

/-- A state reachable from the empty element set by well-formed payloads. -/
def Reachable (s : LWWElementSet) : Prop :=
  ∃ ps : List Payload, (∀ p ∈ ps, WellFormed p) ∧ applyAll CreateLWWElementSet ps = some s

/-- The parsed timestamp of a value as a number (`0` when the value has no second piece;
stored values always have one, see `Inv`). -/
def tsD (val : Str) : Int := (timestampOf val).getD 0

/-- What a registry holds under a key after a value arrives there: the arriving value, unless
the stored one has a strictly greater timestamp (`GetLatestValueTimestamp val stored`). -/
def pick (old : Option Str) (val : Str) : Str :=
  match old with
  | none => val
  | some e => if tsD e > tsD val then e else val

/-- The value `RemoveElement` stores for a payload value: marker, separator, second piece. -/
def removalEntry (val : Str) : Str :=
  REMOVAL_VALUE ++ SEPARATOR ++ (index (Split val SEPARATOR) 1).getD []

/-- What `ViewElements` shows under a key, from the two registry entries of that key. -/
def viewAt (a r : Option Str) : Option Str :=
  match a with
  | none => none
  | some e =>
    match r with
    | none => valueOf e
    | some e2 => if tsD e2 > tsD e then none else valueOf e

/-- Every value stored in the map has a second piece, hence a timestamp. -/
def HasTimestamps (m : GoMap) : Prop := ∀ k e, m.lookup k = some e → ∃ n, timestampOf e = some n

/-- The invariant of the element set: both registries hold only values with a timestamp. -/
def Inv (s : LWWElementSet) : Prop :=
  HasTimestamps s.addOperations ∧ HasTimestamps s.removeOperations

/-- The values that reach the add registry under key `k`, in order of arrival. -/
def upsertVals (k : Str) (ps : List Payload) : List Str :=
  (ps.filter (fun p => (p.op = ADD ∨ p.op = UPDATE) ∧ p.key = k)).map (fun p => p.val)

/-- The values that reach the remove registry under key `k`, in order of arrival. -/
def removeVals (k : Str) (ps : List Payload) : List Str :=
  (ps.filter (fun p => p.op = REMOVE ∧ p.key = k)).map (fun p => removalEntry p.val)

/-- A registry entry after a sequence of arrivals. -/
def regFold (old : Option Str) (vals : List Str) : Option Str :=
  vals.foldl (fun o v => some (pick o v)) old

/-- What `ViewElements` shows under key `k` after the payloads `ps` reached an empty element
set, one after the other. The outer `none` is a panic on the way. -/
def shownAfter (ps : List Payload) (k : Str) : Option (Option Str) :=
  ((applyAll CreateLWWElementSet ps).bind ViewElements).map (fun r => r.lookup k)

/-- Every key of `m` is still a key of `m2`, with a parsed timestamp at least as large. -/
def RegistryLe (m m2 : GoMap) : Prop :=
  ∀ k e, m.lookup k = some e →
    ∃ e2 n n2, m2.lookup k = some e2 ∧ timestampOf e = some n ∧ timestampOf e2 = some n2 ∧ n ≤ n2

/-- Two add entries that `ViewElements` cannot tell apart: both absent, or both present with
the same parsed timestamp and the same value part. -/
def AddEquiv (a1 a2 : Option Str) : Prop :=
  (a1 = none ∧ a2 = none) ∨
    ∃ e1 e2, a1 = some e1 ∧ a2 = some e2 ∧ tsD e1 = tsD e2 ∧ valueOf e1 = valueOf e2

/-- Two remove entries that `ViewElements` cannot tell apart: both absent, or both present
with the same parsed timestamp. -/
def RemEquiv (r1 r2 : Option Str) : Prop :=
  (r1 = none ∧ r2 = none) ∨ ∃ e1 e2, r1 = some e1 ∧ r2 = some e2 ∧ tsD e1 = tsD e2

/-! ## `crdt/model.go` -/

/-- A Go `chan Payload`, by identity. `make(chan Payload)` hands out a channel that the caller
of the model supplies. Blocking and scheduling are outside the model. -/
abbrev Chan := Nat

/-- The active sessions of an application: client id to listener channel. -/
abbrev Sessions := AList (fun _ : Str => Chan)

/-- One send `listener <- payload` of the fan-out loop, with the session key of the loop
iteration that performs it. -/
structure Delivery where
  clientId : Str
  listener : Chan
  payload : Payload
deriving DecidableEq

/-- Source: `type Client struct`. `pushUpdateChannel` is `nil` until the client joins. -/
structure Client where
  Id : Str
  applicationId : Str
  elementSet : LWWElementSet
  listenerChannel : Chan
  pushUpdateChannel : Option Chan

/-- Source: `type Application struct`. -/
structure Application where
  Id : Str
  data : GoMap
  lww : LWWElementSet
  activeSessions : Sessions
  updates : Chan

/-- Source: `type Server struct`. The registry maps an application id to the application the
stored pointer refers to. -/
structure Server where
  applicationLists : AList (fun _ : Str => Application)

/-- Source: `GetClient`; `listenerChannel` is the channel `make` returns. -/
def GetClient (id : Str) (listenerChannel : Chan) : Client :=
  { Id := id
    applicationId := []
    elementSet := CreateLWWElementSet
    listenerChannel := listenerChannel
    pushUpdateChannel := none }

/-- Body of the `range` loop of `Client.ListenForUpdates`: a payload of another client is
applied, a payload that carries the client's own id is skipped. -/
def handleUpdate (client : Client) (payload : Payload) : Option Client :=
  if payload.clientId ≠ client.Id then
    (applyPayload client.elementSet payload).map (fun es => { client with elementSet := es })
  else some client

/-- Source: `Client.ListenForUpdates`, on the payloads that arrive on the listener channel. -/
def ListenForUpdates (client : Client) : List Payload → Option Client
  | [] => some client
  | p :: ps =>
    match handleUpdate client p with
    | none => none
    | some next => ListenForUpdates next ps

/-- Source: `Client.GetCurrentState`. -/
def GetCurrentState (client : Client) : Option GoMap := ViewElements client.elementSet

/-- The loop `for _, listener := range app.activeSessions { listener <- payload }`. -/
def fanOut (activeSessions : Sessions) (payload : Payload) : List Delivery :=
  activeSessions.entries.map (fun e => { clientId := e.1, listener := e.2, payload := payload })

/-- Body of the `range` loop of `Application.ListenToPayloads`: the payload is applied to the
application's element set, then sent to the listener of every active session. -/
def processPayload (app : Application) (payload : Payload) :
    Option (Application × List Delivery) :=
  match applyPayload app.lww payload with
  | none => none
  | some lww => some ({ app with lww := lww }, fanOut app.activeSessions payload)

/-- Source: `Application.ListenToPayloads`, on the payloads that arrive on the updates channel;
the result holds the sends in the order they are made. -/
def ListenToPayloads (app : Application) : List Payload → Option (Application × List Delivery)
  | [] => some (app, [])
  | p :: ps =>
    match processPayload app p with
    | none => none
    | some (app2, ds) =>
      match ListenToPayloads app2 ps with
      | none => none
      | some (app3, ds2) => some (app3, ds ++ ds2)

/-- Source: `Application.GetInitialData`: refreshes `data` from the element set. -/
def GetInitialData (app : Application) : Option (Application × GoMap) :=
  (ViewElements app.lww).map (fun d => ({ app with data := d }, d))

/-- Source: `Application.AddListenerClient`: the session is overwritten, `data` and the
updates channel are returned as they are. -/
def AddListenerClient (app : Application) (clientId : Str) (clientListener : Chan) :
    Application × GoMap × Chan :=
  ({ app with activeSessions := app.activeSessions.insert clientId clientListener },
    app.data, app.updates)

/-- Source: `Application.CloseApplicationForClient`. -/
def CloseApplicationForClient (app : Application) (clientId : Str) : Application :=
  { app with activeSessions := app.activeSessions.erase clientId }

/-- Source: `CreateServer`. -/
def CreateServer : Server := { applicationLists := ∅ }

/-- The application literal of `CreateAndRegisterApplication`; `updates` is the channel
`make` returns. -/
def newApplication (updates : Chan) : Application :=
  { Id := ['t', 'e', 's', 't', '-', 'i', 'd']
    data := ∅
    lww := CreateLWWElementSet
    activeSessions := ∅
    updates := updates }

/-- Source: `Server.CreateAndRegisterApplication`: the application is stored under its id,
which is the literal `"test-id"`, and the id is returned. -/
def CreateAndRegisterApplication (server : Server) (updates : Chan) : Str × Server :=
  ((newApplication updates).Id,
    { applicationLists :=
        server.applicationLists.insert (newApplication updates).Id (newApplication updates) })

/-- Source: `Server.GetRequestedApplication`. A missing id yields a nil pointer, and the
field access in `AddListenerClient` panics on it. -/
def GetRequestedApplication (server : Server) (clientId : Str) (clientListener : Chan)
    (appId : Str) : Option (Server × GoMap × Chan) :=
  match server.applicationLists.lookup appId with
  | none => none
  | some app =>
    some ({ applicationLists :=
              server.applicationLists.insert appId
                (AddListenerClient app clientId clientListener).1 },
      (AddListenerClient app clientId clientListener).2.1,
      (AddListenerClient app clientId clientListener).2.2)

/-- Source: `Client.WorkOnApplication`: the client joins, keeps the returned data as its
`InitialSet` and the returned channel as its push channel. -/
def WorkOnApplication (client : Client) (applicationId : Str) (server : Server) :
    Option (Client × Server) :=
  match GetRequestedApplication server client.Id client.listenerChannel applicationId with
  | none => none
  | some (server2, initialData, applicationUpdateChannel) =>
    some ({ client with
              elementSet := { client.elementSet with InitialSet := initialData }
              pushUpdateChannel := some applicationUpdateChannel },
      server2)

/-- A well-formed payload whose timestamp fits a 64-bit Go `int`. -/
def InRange (p : Payload) : Prop :=
  ∃ (v : Str) (t : Nat), '#' ∉ v ∧ t < 2 ^ 63 ∧ p.val = encode v t

/-- A state reachable from the empty element set by payloads of any kind. -/
def ReachableFromEmpty (s : LWWElementSet) : Prop :=
  ∃ ps : List Payload, applyAll CreateLWWElementSet ps = some s

/-! ## Strings: splitting, formatting and parsing -/

theorem sep_mismatch (c : Char) (cs : Str) (h : c ≠ '#') :
    SEPARATOR.isPrefixOf (c :: cs) = false := by
  have h2 : ('#' == c) = false := by
    simp only [beq_eq_false_iff_ne, ne_eq]
    exact fun e => h e.symm
  simp [SEPARATOR, List.isPrefixOf, h2]

theorem Index_none_of_no_hash (s : Str) (h : '#' ∉ s) : Index s SEPARATOR = none := by
  induction s with
  | nil => simp [Index, SEPARATOR]
  | cons c cs ih =>
    have hc : c ≠ '#' := fun e => h (by simp [e])
    have hcs : '#' ∉ cs := fun e => h (by simp [e])
    simp [Index, sep_mismatch c cs hc, ih hcs]

theorem Index_append_sep (v rest : Str) (h : '#' ∉ v) :
    Index (v ++ SEPARATOR ++ rest) SEPARATOR = some v.length := by
  induction v with
  | nil => simp [Index, SEPARATOR, List.isPrefixOf]
  | cons c cs ih =>
    have hc : c ≠ '#' := fun e => h (by simp [e])
    have hcs : '#' ∉ cs := fun e => h (by simp [e])
    have h3 := ih hcs
    simp only [List.append_assoc] at h3
    simp [Index, sep_mismatch c _ hc, h3]

theorem genSplit_no_hash (n : Nat) (s : Str) (h : '#' ∉ s) : genSplit n s SEPARATOR = [s] := by
  cases n with
  | zero => rfl
  | succ n => simp [genSplit, Index_none_of_no_hash s h]

theorem Split_sep (v t : Str) (hv : '#' ∉ v) (ht : '#' ∉ t) :
    Split (v ++ SEPARATOR ++ t) SEPARATOR = [v, t] := by
  have hlen : (v ++ SEPARATOR ++ t).length = (v.length + 3 + t.length) + 1 := by
    simp [SEPARATOR]; omega
  unfold Split
  rw [hlen, genSplit, Index_append_sep v t hv]
  have h1 : List.take v.length (v ++ SEPARATOR ++ t) = v := by simp
  have h2 : List.drop (v.length + SEPARATOR.length) (v ++ SEPARATOR ++ t) = t := by
    have : v.length + SEPARATOR.length = (v ++ SEPARATOR).length := by simp
    rw [this, List.drop_left]
  simp only [h1, h2, genSplit_no_hash _ t ht]

theorem genSplit_ne_nil (n : Nat) (s sep : Str) : ∃ a l, genSplit n s sep = a :: l := by
  cases n with
  | zero => exact ⟨s, [], rfl⟩
  | succ n =>
    cases h : Index s sep with
    | none => exact ⟨s, [], by simp [genSplit, h]⟩
    | some m =>
      exact ⟨s.take m, genSplit n (s.drop (m + sep.length)) sep, by simp only [genSplit, h]⟩

theorem Split_of_contains (s : Str) (h : Contains s SEPARATOR = true) :
    ∃ a b l, Split s SEPARATOR = a :: b :: l := by
  unfold Contains at h
  obtain ⟨m, hm⟩ := Option.isSome_iff_exists.mp h
  cases s with
  | nil => simp [Index, SEPARATOR] at hm
  | cons c cs =>
    obtain ⟨b, l, hbl⟩ := genSplit_ne_nil cs.length
      (List.drop (m + SEPARATOR.length) (c :: cs)) SEPARATOR
    exact ⟨List.take m (c :: cs), b, l,
      by simp only [Split, List.length_cons, genSplit, hm, hbl]⟩

theorem valueOf_isSome (val : Str) : ∃ v, valueOf val = some v := by
  obtain ⟨a, l, h⟩ := genSplit_ne_nil val.length val SEPARATOR
  exact ⟨a, by simp [valueOf, Split, h, index]⟩

theorem timestampOf_of_contains (s : Str) (h : Contains s SEPARATOR = true) :
    ∃ n, timestampOf s = some n := by
  obtain ⟨a, b, l, hs⟩ := Split_of_contains s h
  exact ⟨Atoi b, by simp [timestampOf, hs, index]⟩

theorem removal_no_hash : '#' ∉ REMOVAL_VALUE := by decide

theorem contains_removal (ts : Str) :
    Contains (REMOVAL_VALUE ++ SEPARATOR ++ ts) SEPARATOR = true := by
  rw [Contains, Index_append_sep REMOVAL_VALUE ts removal_no_hash]
  rfl

theorem digitChar_isDigit (d : Nat) (h : d < 10) : (digitChar d).isDigit = true := by
  interval_cases d <;> rfl

theorem digitChar_toNat (d : Nat) (h : d < 10) : (digitChar d).toNat - 48 = d := by
  interval_cases d <;> rfl

theorem digitChar_ne (d : Nat) (h : d < 10) :
    digitChar d ≠ '+' ∧ digitChar d ≠ '-' ∧ digitChar d ≠ '#' := by
  interval_cases d <;> decide

theorem formatBits_acc (f u : Nat) (acc : Str) :
    formatBits f u acc = formatBits f u [] ++ acc := by
  induction f generalizing u acc with
  | zero => simp [formatBits]
  | succ f ih =>
    simp only [formatBits]
    split
    · simp
    · rw [ih, ih (u / 10) [digitChar (u % 10)]]
      simp

theorem formatBits_head (f u : Nat) :
    ∃ d cs, d < 10 ∧ formatBits (f + 1) u [] = digitChar d :: cs := by
  induction f generalizing u with
  | zero =>
    by_cases h : u < 10
    · exact ⟨u, [], h, by simp [formatBits, h]⟩
    · exact ⟨u % 10, [], Nat.mod_lt _ (by norm_num), by simp [formatBits, h]⟩
  | succ f ih =>
    by_cases h : u < 10
    · exact ⟨u, [], h, by simp [formatBits, h]⟩
    · obtain ⟨d, cs, hd, hcs⟩ := ih (u / 10)
      refine ⟨d, cs ++ [digitChar (u % 10)], hd, ?_⟩
      rw [formatBits, if_neg h, formatBits_acc, hcs]
      simp

theorem formatBits_no_hash (f u : Nat) (acc : Str) (h : '#' ∉ acc) :
    '#' ∉ formatBits f u acc := by
  induction f generalizing u acc with
  | zero => simpa [formatBits] using h
  | succ f ih =>
    simp only [formatBits]
    split
    · rename_i hu
      have := (digitChar_ne u hu).2.2
      simp only [List.mem_cons, not_or]
      exact ⟨fun e => this e.symm, h⟩
    · apply ih
      have := (digitChar_ne (u % 10) (Nat.mod_lt _ (by norm_num))).2.2
      simp only [List.mem_cons, not_or]
      exact ⟨fun e => this e.symm, h⟩

theorem parseUintLoop_append (a b : Str) (n : Nat) :
    parseUintLoop (a ++ b) n =
      match parseUintLoop a n with
      | ParseResult.ok m => parseUintLoop b m
      | r => r := by
  induction a generalizing n with
  | nil => simp [parseUintLoop]
  | cons c cs ih =>
    simp only [List.cons_append, parseUintLoop]
    split_ifs <;> simp [ih]

theorem maxUint64_eq : maxUint64 = 18446744073709551615 := by norm_num [maxUint64]

theorem maxInt_eq : maxInt = 9223372036854775807 := by norm_num [maxInt]

theorem parseUintLoop_digit (d m : Nat) (hd : d < 10) :
    parseUintLoop [digitChar d] m =
      if m * 10 + d ≤ maxUint64 then ParseResult.ok (m * 10 + d) else ParseResult.rangeErr := by
  simp only [parseUintLoop, digitChar_isDigit d hd, digitChar_toNat d hd, if_true, maxUint64_eq]
  split_ifs <;> first | rfl | omega

theorem parse_formatBits (f u : Nat) (h : u < f) :
    parseUintLoop (formatBits f u []) 0 =
      if u ≤ maxUint64 then ParseResult.ok u else ParseResult.rangeErr := by
  induction f generalizing u with
  | zero => omega
  | succ f ih =>
    by_cases hu : u < 10
    · have := parseUintLoop_digit u 0 hu
      simp only [formatBits, hu, if_true, this]
      simp
    · rw [formatBits, if_neg hu, formatBits_acc, parseUintLoop_append, ih (u / 10) (by omega)]
      have hdm : u / 10 * 10 + u % 10 = u := by omega
      by_cases h1 : u / 10 ≤ maxUint64
      · simp only [h1, if_true, parseUintLoop_digit _ _ (Nat.mod_lt u (by norm_num)), hdm]
      · have h2 : ¬ u ≤ maxUint64 := by
          rw [maxUint64_eq] at h1 ⊢
          omega
        simp only [h1, h2, if_false]

theorem FormatInt_natCast (t : Nat) : FormatInt (t : Int) = formatBits (t + 1) t [] := by
  have h : ¬ ((t : Int) < 0) := by omega
  simp [FormatInt, h]

theorem FormatInt_no_hash (t : Nat) : '#' ∉ FormatInt (t : Int) := by
  rw [FormatInt_natCast]
  exact formatBits_no_hash _ _ [] (by simp)

/-- Parsing the decimal form of `t` gives `t`, or the largest `int` when `t` exceeds it. -/
theorem Atoi_FormatInt (t : Nat) : Atoi (FormatInt (t : Int)) = min (t : Int) maxInt := by
  rw [FormatInt_natCast]
  obtain ⟨d, cs, hd, hcs⟩ := formatBits_head t t
  have hp := parse_formatBits (t + 1) t (by omega)
  rw [hcs] at hp
  obtain ⟨h1, h2, -⟩ := digitChar_ne d hd
  rw [hcs]
  have hne : (digitChar d :: cs) ≠ [] := by simp
  simp only [Atoi, h1, h2, if_false, parseIntSigned, ParseUint, if_neg hne, hp]
  rw [maxInt_eq]
  by_cases h3 : t ≤ maxUint64
  · rw [if_pos h3]
    rw [maxUint64_eq] at h3
    by_cases h4 : t ≥ 2 ^ 63
    · have h5 : (t : Int) ≥ 9223372036854775808 := by
        norm_num at h4
        omega
      simp [h4]
      omega
    · have h5 : (t : Int) < 9223372036854775808 := by
        norm_num at h4
        omega
      simp [h4]
      omega
  · rw [if_neg h3]
    rw [maxUint64_eq] at h3
    simp
    omega

theorem Split_encode (v : Str) (t : Nat) (hv : '#' ∉ v) :
    Split (encode v t) SEPARATOR = [v, FormatInt (t : Int)] :=
  Split_sep v _ hv (FormatInt_no_hash t)

theorem timestampOf_encode (v : Str) (t : Nat) (hv : '#' ∉ v) :
    timestampOf (encode v t) = some (min (t : Int) maxInt) := by
  simp [timestampOf, Split_encode v t hv, index, Atoi_FormatInt]

theorem valueOf_encode (v : Str) (t : Nat) (hv : '#' ∉ v) : valueOf (encode v t) = some v := by
  simp [valueOf, Split_encode v t hv, index]

/-! ## Registries -/

theorem timestampOf_eq_tsD {e : Str} (h : ∃ n, timestampOf e = some n) :
    timestampOf e = some (tsD e) := by
  obtain ⟨n, hn⟩ := h
  simp [tsD, hn]

theorem GetLatest_eq (v1 v2 : Str) (h1 : ∃ n, timestampOf v1 = some n)
    (h2 : ∃ n, timestampOf v2 = some n) :
    GetLatestValueTimestamp v1 v2 = some (if tsD v2 > tsD v1 then v2 else v1) := by
  obtain ⟨n1, hn1⟩ := h1
  obtain ⟨n2, hn2⟩ := h2
  cases hx : index (Split v1 SEPARATOR) 1 with
  | none => simp [timestampOf, hx] at hn1
  | some x =>
    cases hy : index (Split v2 SEPARATOR) 1 with
    | none => simp [timestampOf, hy] at hn2
    | some y =>
      have e1 : tsD v1 = Atoi x := by simp [tsD, timestampOf, hx]
      have e2 : tsD v2 = Atoi y := by simp [tsD, timestampOf, hy]
      simp only [GetLatestValueTimestamp, hx, hy, e1, e2]
      split_ifs <;> rfl

theorem lookup_insert_ite (m : GoMap) (k k2 v : Str) :
    (m.insert k v).lookup k2 = if k2 = k then some v else m.lookup k2 := by
  by_cases h : k2 = k
  · subst h
    simp [AList.lookup_insert]
  · simp [h, AList.lookup_insert_ne h]

theorem pick_cases (old : Option Str) (val : Str) :
    pick old val = val ∨ old = some (pick old val) := by
  cases old with
  | none => exact Or.inl rfl
  | some e =>
    simp only [pick]
    split_ifs
    · exact Or.inr rfl
    · exact Or.inl rfl

theorem tsD_pick_ge_val (old : Option Str) (val : Str) : tsD val ≤ tsD (pick old val) := by
  cases old with
  | none => simp [pick]
  | some e =>
    simp only [pick]
    split_ifs <;> omega

theorem tsD_pick_ge_old (e val : Str) : tsD e ≤ tsD (pick (some e) val) := by
  simp only [pick]
  split_ifs <;> omega

theorem pick_idem (old : Option Str) (val : Str) :
    pick (some (pick old val)) val = pick old val := by
  cases old with
  | none => simp [pick]
  | some e =>
    simp only [pick]
    split_ifs <;> rfl

theorem hasTs_pick (old : Option Str) (val : Str) (hv : ∃ n, timestampOf val = some n)
    (ho : ∀ e, old = some e → ∃ n, timestampOf e = some n) :
    ∃ n, timestampOf (pick old val) = some n := by
  rcases pick_cases old val with h | h
  · rw [h]; exact hv
  · exact ho _ h

theorem hasTimestamps_insert (m : GoMap) (k v : Str) (hm : HasTimestamps m)
    (hv : ∃ n, timestampOf v = some n) : HasTimestamps (m.insert k v) := by
  intro k2 e he
  rw [lookup_insert_ite] at he
  split_ifs at he with h
  · cases he; exact hv
  · exact hm k2 e he

theorem hasTimestamps_empty : HasTimestamps (∅ : GoMap) := by
  intro k e he
  simp [AList.lookup_empty] at he

theorem inv_empty : Inv CreateLWWElementSet := ⟨hasTimestamps_empty, hasTimestamps_empty⟩

theorem hasTs_removalEntry (val : Str) : ∃ n, timestampOf (removalEntry val) = some n :=
  timestampOf_of_contains _ (contains_removal _)

/-- On a state whose entries all carry a timestamp, `UpsertElement` of a value with a
timestamp returns, and stores `pick` of the old entry and the value. -/
theorem UpsertElement_eq (s : LWWElementSet) (p : Payload) (hs : Inv s)
    (hp : ∃ n, timestampOf p.val = some n) :
    UpsertElement s p = some { s with
      addOperations := s.addOperations.insert p.key (pick (s.addOperations.lookup p.key) p.val) }
    := by
  unfold UpsertElement
  cases h : s.addOperations.lookup p.key with
  | none => simp [pick]
  | some e =>
    simp only [GetLatest_eq p.val e hp (hs.1 _ _ h), pick]

/-- `RemoveElement` of a value with a second piece returns, and stores `pick` of the old
entry and the removal entry built from the value. -/
theorem RemoveElement_eq (s : LWWElementSet) (p : Payload) (hs : Inv s)
    (hp : ∃ n, timestampOf p.val = some n) :
    RemoveElement s p = some { s with
      removeOperations := s.removeOperations.insert p.key
        (pick (s.removeOperations.lookup p.key) (removalEntry p.val)) } := by
  obtain ⟨n, hn⟩ := hp
  cases hx : index (Split p.val SEPARATOR) 1 with
  | none => simp [timestampOf, hx] at hn
  | some x =>
    have hr : removalEntry p.val = REMOVAL_VALUE ++ SEPARATOR ++ x := by
      simp [removalEntry, hx]
    unfold RemoveElement
    simp only [hx]
    rw [← hr]
    cases h : s.removeOperations.lookup p.key with
    | none => simp [pick]
    | some e =>
      simp only [GetLatest_eq _ e (hasTs_removalEntry p.val) (hs.2 _ _ h), pick]

theorem inv_upsert (s : LWWElementSet) (p : Payload) (hs : Inv s)
    (hp : ∃ n, timestampOf p.val = some n) :
    Inv { s with
      addOperations := s.addOperations.insert p.key (pick (s.addOperations.lookup p.key) p.val) }
    :=
  ⟨hasTimestamps_insert _ _ _ hs.1 (hasTs_pick _ _ hp (fun e he => hs.1 _ e he)), hs.2⟩

theorem inv_remove (s : LWWElementSet) (p : Payload) (hs : Inv s) :
    Inv { s with
      removeOperations := s.removeOperations.insert p.key
        (pick (s.removeOperations.lookup p.key) (removalEntry p.val)) } :=
  ⟨hs.1, hasTimestamps_insert _ _ _ hs.2
    (hasTs_pick _ _ (hasTs_removalEntry p.val) (fun e he => hs.2 _ e he))⟩

/-! ## The view -/

theorem viewStep_eq (rem acc : GoMap) (k e : Str) (hr : HasTimestamps rem)
    (he : ∃ n, timestampOf e = some n) :
    viewStep rem acc ⟨k, e⟩ =
      some (match viewAt (some e) (rem.lookup k) with
        | some v => acc.insert k v
        | none => acc) := by
  obtain ⟨v, hv⟩ := valueOf_isSome e
  have hv2 : index (Split e SEPARATOR) 0 = some v := hv
  unfold viewStep
  cases h : rem.lookup k with
  | none => simp [viewAt, hv, hv2]
  | some e2 =>
    simp only [GetLatest_eq e e2 he (hr _ _ h), viewAt]
    by_cases hlt : tsD e2 > tsD e
    · have hne : e2 ≠ e := by
        intro heq
        rw [heq] at hlt
        omega
      simp [hlt, hne]
    · simp [hlt, hv, hv2]

theorem view_fold (rem : GoMap) (hr : HasTimestamps rem)
    (es : List (Sigma fun _ : Str => Str)) (acc : GoMap) (hnd : es.NodupKeys)
    (hes : ∀ x ∈ es, ∃ n, timestampOf x.2 = some n) :
    ∃ r, es.foldlM (viewStep rem) acc = some r ∧
      ∀ k, r.lookup k =
        match es.dlookup k with
        | none => acc.lookup k
        | some e =>
          match viewAt (some e) (rem.lookup k) with
          | some v => some v
          | none => acc.lookup k := by
  induction es generalizing acc with
  | nil => exact ⟨acc, rfl, fun k => by simp⟩
  | cons x xs ih =>
    obtain ⟨k0, e0⟩ := x
    have hnd2 := List.nodupKeys_cons.mp hnd
    have he0 : ∃ n, timestampOf e0 = some n := hes ⟨k0, e0⟩ (by simp)
    obtain ⟨r, hr1, hr2⟩ := ih
      (match viewAt (some e0) (rem.lookup k0) with
        | some v => acc.insert k0 v
        | none => acc) hnd2.2 (fun x hx => hes x (by simp [hx]))
    refine ⟨r, ?_, ?_⟩
    · rw [List.foldlM_cons, viewStep_eq rem acc k0 e0 hr he0]
      exact hr1
    · intro k
      rw [hr2 k]
      by_cases hk : k = k0
      · subst hk
        have hnone : List.dlookup k xs = none := List.dlookup_eq_none.mpr hnd2.1
        rw [hnone, List.dlookup_cons_eq]
        cases hva : viewAt (some e0) (rem.lookup k) with
        | none => simp [hva]
        | some v => simp [AList.lookup_insert, hva]
      · rw [List.dlookup_cons_ne _ _ hk]
        have hacc : (match viewAt (some e0) (rem.lookup k0) with
            | some v => acc.insert k0 v
            | none => acc).lookup k = acc.lookup k := by
          cases viewAt (some e0) (rem.lookup k0) with
          | none => rfl
          | some v => simp [AList.lookup_insert_ne hk]
        rw [hacc]

/-- On a state whose entries all carry a timestamp, `ViewElements` returns, and what it shows
under each key is `viewAt` of the two registry entries of that key. -/
theorem view_spec (s : LWWElementSet) (hs : Inv s) :
    ∃ r, ViewElements s = some r ∧
      ∀ k, r.lookup k = viewAt (s.addOperations.lookup k) (s.removeOperations.lookup k) := by
  have hes : ∀ x ∈ s.addOperations.entries, ∃ n, timestampOf x.2 = some n := by
    intro x hx
    obtain ⟨k, e⟩ := x
    exact hs.1 k e (AList.mem_lookup_iff.mpr hx)
  obtain ⟨r, h1, h2⟩ := view_fold s.removeOperations hs.2 s.addOperations.entries ∅
    s.addOperations.nodupKeys hes
  refine ⟨r, h1, fun k => ?_⟩
  rw [h2 k]
  show (match s.addOperations.lookup k with
    | none => (∅ : GoMap).lookup k
    | some e =>
      match viewAt (some e) (s.removeOperations.lookup k) with
      | some v => some v
      | none => (∅ : GoMap).lookup k) = _
  cases s.addOperations.lookup k with
  | none => simp [viewAt, AList.lookup_empty]
  | some e =>
    cases hva : viewAt (some e) (s.removeOperations.lookup k) with
    | none => simp [AList.lookup_empty, hva]
    | some v => simp [hva]

/-! ## Sequences of payloads -/

theorem hasTs_of_wellFormed (p : Payload) (h : WellFormed p) :
    ∃ n, timestampOf p.val = some n := by
  obtain ⟨v, t, hv, hval⟩ := h
  exact ⟨_, by rw [hval]; exact timestampOf_encode v t hv⟩

theorem contains_of_wellFormed (p : Payload) (h : WellFormed p) :
    Contains p.val SEPARATOR = true := by
  obtain ⟨v, t, hv, hval⟩ := h
  rw [hval, encode, Contains, Index_append_sep v _ hv]
  rfl

/-- The state after one payload with a timestamp, whatever its operation code. -/
theorem applyPayload_spec (s : LWWElementSet) (p : Payload) (hs : Inv s)
    (hp : ∃ n, timestampOf p.val = some n) :
    ∃ s2, applyPayload s p = some s2 ∧ Inv s2 ∧ s2.InitialSet = s.InitialSet ∧
      (∀ k, s2.addOperations.lookup k =
        if (p.op = ADD ∨ p.op = UPDATE) ∧ p.key = k
        then some (pick (s.addOperations.lookup k) p.val) else s.addOperations.lookup k) ∧
      (∀ k, s2.removeOperations.lookup k =
        if p.op = REMOVE ∧ p.key = k
        then some (pick (s.removeOperations.lookup k) (removalEntry p.val))
        else s.removeOperations.lookup k) := by
  have hAR : ADD ≠ REMOVE := by decide
  have hUR : UPDATE ≠ REMOVE := by decide
  have hAU : ADD ≠ UPDATE := by decide
  by_cases h1 : p.op = ADD
  · refine ⟨_, by rw [applyPayload, if_pos h1]; exact UpsertElement_eq s p hs hp,
      inv_upsert s p hs hp, rfl, fun k => ?_, fun k => ?_⟩
    · simp only [lookup_insert_ite, h1, true_or, true_and]
      by_cases hk : k = p.key
      · subst hk; simp
      · have hk2 : ¬ p.key = k := fun e => hk e.symm
        simp [hk, hk2]
    · have : ¬ (p.op = REMOVE) := by rw [h1]; exact hAR
      simp [this]
  · by_cases h2 : p.op = REMOVE
    · refine ⟨_, by rw [applyPayload, if_neg h1, if_pos h2]; exact RemoveElement_eq s p hs hp,
        inv_remove s p hs, rfl, fun k => ?_, fun k => ?_⟩
      · have : ¬ (p.op = UPDATE) := by rw [h2]; exact fun e => hUR e.symm
        simp [h1, this]
      · simp only [lookup_insert_ite, h2, true_and]
        by_cases hk : k = p.key
        · subst hk; simp
        · have hk2 : ¬ p.key = k := fun e => hk e.symm
          simp [hk, hk2]
    · by_cases h3 : p.op = UPDATE
      · have happ : applyPayload s p = UpsertElement s p := by
          rw [applyPayload, if_neg h1, if_neg h2, if_pos h3]
        refine ⟨_, by rw [happ]; exact UpsertElement_eq s p hs hp,
          inv_upsert s p hs hp, rfl, fun k => ?_, fun k => ?_⟩
        · simp only [lookup_insert_ite, h3, or_true, true_and]
          by_cases hk : k = p.key
          · subst hk; simp
          · have hk2 : ¬ p.key = k := fun e => hk e.symm
            simp [hk, hk2]
        · simp [h2]
      · exact ⟨s, by simp [applyPayload, h1, h2, h3], hs, rfl,
          fun k => by simp [h1, h3], fun k => by simp [h2]⟩

theorem upsertVals_cons (k : Str) (p : Payload) (ps : List Payload) :
    upsertVals k (p :: ps) =
      if (p.op = ADD ∨ p.op = UPDATE) ∧ p.key = k then p.val :: upsertVals k ps
      else upsertVals k ps := by
  by_cases h : (p.op = ADD ∨ p.op = UPDATE) ∧ p.key = k
  · simp [upsertVals, List.filter_cons, h]
  · simp only [upsertVals, List.filter_cons, h, if_false]
    simp

theorem removeVals_cons (k : Str) (p : Payload) (ps : List Payload) :
    removeVals k (p :: ps) =
      if p.op = REMOVE ∧ p.key = k then removalEntry p.val :: removeVals k ps
      else removeVals k ps := by
  by_cases h : p.op = REMOVE ∧ p.key = k
  · simp [removeVals, List.filter_cons, h]
  · simp only [removeVals, List.filter_cons, h, if_false]
    simp

theorem mem_upsertVals (k v : Str) (ps : List Payload) :
    v ∈ upsertVals k ps ↔ ∃ p ∈ ps, ((p.op = ADD ∨ p.op = UPDATE) ∧ p.key = k) ∧ p.val = v := by
  simp [upsertVals, List.mem_map, List.mem_filter, and_assoc]

theorem mem_removeVals (k v : Str) (ps : List Payload) :
    v ∈ removeVals k ps ↔ ∃ p ∈ ps, (p.op = REMOVE ∧ p.key = k) ∧ removalEntry p.val = v := by
  simp [removeVals, List.mem_map, List.mem_filter, and_assoc]

theorem regFold_cons (old : Option Str) (v : Str) (vs : List Str) :
    regFold old (v :: vs) = regFold (some (pick old v)) vs := rfl

/-- The state after a sequence of payloads with timestamps: the run returns, and each
registry entry is the fold of `pick` over the values that arrived under its key. -/
theorem applyAll_spec (ps : List Payload) (s : LWWElementSet) (hs : Inv s)
    (hps : ∀ p ∈ ps, ∃ n, timestampOf p.val = some n) :
    ∃ s2, applyAll s ps = some s2 ∧ Inv s2 ∧
      (∀ k, s2.addOperations.lookup k = regFold (s.addOperations.lookup k) (upsertVals k ps)) ∧
      (∀ k, s2.removeOperations.lookup k =
        regFold (s.removeOperations.lookup k) (removeVals k ps)) := by
  induction ps generalizing s with
  | nil => exact ⟨s, rfl, hs, fun k => rfl, fun k => rfl⟩
  | cons p ps ih =>
    obtain ⟨s1, h1, hinv1, -, ha1, hr1⟩ := applyPayload_spec s p hs (hps p (by simp))
    obtain ⟨s2, h2, hinv2, ha2, hr2⟩ := ih s1 hinv1 (fun q hq => hps q (by simp [hq]))
    refine ⟨s2, by simp only [applyAll, h1, h2], hinv2, fun k => ?_, fun k => ?_⟩
    · rw [ha2 k, ha1 k, upsertVals_cons]
      split_ifs <;> rfl
    · rw [hr2 k, hr1 k, removeVals_cons]
      split_ifs <;> rfl

theorem inv_of_reachable (s : LWWElementSet) (h : Reachable s) : Inv s := by
  obtain ⟨ps, hps, hs⟩ := h
  obtain ⟨s2, h2, hinv, -, -⟩ := applyAll_spec ps CreateLWWElementSet inv_empty
    (fun p hp => hasTs_of_wellFormed p (hps p hp))
  rw [hs] at h2
  cases h2
  exact hinv

theorem regFold_some (e : Str) (vals : List Str) :
    ∃ e2, regFold (some e) vals = some e2 ∧ tsD e ≤ tsD e2 := by
  induction vals generalizing e with
  | nil => exact ⟨e, rfl, le_refl _⟩
  | cons v vs ih =>
    obtain ⟨e2, h1, h2⟩ := ih (pick (some e) v)
    exact ⟨e2, h1, le_trans (tsD_pick_ge_old e v) h2⟩

theorem regFold_ge (old : Option Str) (vals : List Str) (v : Str) (hv : v ∈ vals) :
    ∃ e, regFold old vals = some e ∧ tsD v ≤ tsD e := by
  induction vals generalizing old with
  | nil => simp at hv
  | cons w ws ih =>
    rw [regFold_cons]
    rcases List.mem_cons.mp hv with h | h
    · subst h
      obtain ⟨e2, h1, h2⟩ := regFold_some (pick old v) ws
      exact ⟨e2, h1, le_trans (tsD_pick_ge_val old v) h2⟩
    · exact ih _ h

theorem regFold_mem (old : Option Str) (vals : List Str) (e : Str)
    (h : regFold old vals = some e) : old = some e ∨ e ∈ vals := by
  induction vals generalizing old with
  | nil => exact Or.inl h
  | cons w ws ih =>
    rw [regFold_cons] at h
    rcases ih _ h with h1 | h1
    · rcases pick_cases old w with h2 | h2
      · right
        rw [h2] at h1
        cases h1
        simp
      · left
        rw [h2, h1]
    · right
      simp [h1]

/-- From an empty entry, two arrival sequences with the same set of values end both empty,
or on entries of both sequences with the same parsed timestamp. -/
theorem regFold_none_ts (vals1 vals2 : List Str) (hset : ∀ v, v ∈ vals1 ↔ v ∈ vals2) :
    (regFold none vals1 = none ∧ regFold none vals2 = none) ∨
      ∃ e1 e2, regFold none vals1 = some e1 ∧ regFold none vals2 = some e2 ∧
        e1 ∈ vals1 ∧ e2 ∈ vals1 ∧ tsD e1 = tsD e2 := by
  cases vals1 with
  | nil =>
    have h2 : vals2 = [] := by
      cases vals2 with
      | nil => rfl
      | cons w ws => exact absurd ((hset w).mpr (by simp)) (by simp)
    left
    rw [h2]
    exact ⟨rfl, rfl⟩
  | cons v vs =>
    right
    obtain ⟨e1, h1, -⟩ := regFold_ge none (v :: vs) v (by simp)
    obtain ⟨e2, h2, -⟩ := regFold_ge none vals2 v ((hset v).mp (by simp))
    have m1 : e1 ∈ v :: vs := by
      rcases regFold_mem none _ e1 h1 with h | h
      · cases h
      · exact h
    have m2 : e2 ∈ vals2 := by
      rcases regFold_mem none _ e2 h2 with h | h
      · cases h
      · exact h
    obtain ⟨x, hx1, hx2⟩ := regFold_ge none vals2 e1 ((hset e1).mp m1)
    obtain ⟨y, hy1, hy2⟩ := regFold_ge none (v :: vs) e2 ((hset e2).mpr m2)
    rw [h2] at hx1
    rw [h1] at hy1
    cases hx1
    cases hy1
    exact ⟨e1, e2, h1, h2, m1, (hset e2).mpr m2, le_antisymm hx2 hy2⟩

theorem viewAt_congr (a1 a2 r1 r2 : Option Str) (ha : AddEquiv a1 a2) (hr : RemEquiv r1 r2) :
    viewAt a1 r1 = viewAt a2 r2 := by
  rcases ha with ⟨h1, h2⟩ | ⟨e1, e2, h1, h2, hts, hval⟩
  · rw [h1, h2]
    rfl
  · rcases hr with ⟨h3, h4⟩ | ⟨f1, f2, h3, h4, hts2⟩
    · rw [h1, h2, h3, h4]
      exact hval
    · rw [h1, h2, h3, h4]
      simp only [viewAt, hts, hts2, hval]

theorem addEquiv_refl (a : Option Str) : AddEquiv a a := by
  cases a with
  | none => exact Or.inl ⟨rfl, rfl⟩
  | some e => exact Or.inr ⟨e, e, rfl, rfl, rfl, rfl⟩

theorem remEquiv_refl (a : Option Str) : RemEquiv a a := by
  cases a with
  | none => exact Or.inl ⟨rfl, rfl⟩
  | some e => exact Or.inr ⟨e, e, rfl, rfl, rfl⟩

theorem pick2_ts (old : Option Str) (a b : Str) :
    tsD (pick (some (pick old a)) b) = tsD (pick (some (pick old b)) a) := by
  cases old with
  | none =>
    simp only [pick]
    split_ifs <;> omega
  | some e =>
    simp only [pick]
    split_ifs <;> omega

theorem pick2_val (old : Option Str) (a b : Str) (h : tsD a = tsD b → valueOf a = valueOf b) :
    valueOf (pick (some (pick old a)) b) = valueOf (pick (some (pick old b)) a) := by
  by_cases hab : tsD a = tsD b
  · have hv := h hab
    cases old with
    | none =>
      simp only [pick, hab]
      simp [hv]
    | some e =>
      simp only [pick, hab]
      split_ifs <;> first | rfl | exact hv | exact hv.symm
  · cases old with
    | none =>
      simp only [pick]
      split_ifs <;> first | rfl | omega
    | some e =>
      simp only [pick]
      split_ifs <;> first | rfl | omega

theorem tsD_eq_of_timestampOf {e : Str} {n : Int} (h : timestampOf e = some n) : tsD e = n := by
  simp [tsD, h]

theorem tsD_encode (v : Str) (t : Nat) (hv : '#' ∉ v) : tsD (encode v t) = min (t : Int) maxInt :=
  tsD_eq_of_timestampOf (timestampOf_encode v t hv)

theorem removalEntry_encode (v : Str) (t : Nat) (hv : '#' ∉ v) :
    removalEntry (encode v t) = encode REMOVAL_VALUE t := by
  rw [removalEntry, Split_encode v t hv]
  rfl

theorem hasTs_encode (v : Str) (t : Nat) (hv : '#' ∉ v) :
    ∃ n, timestampOf (encode v t) = some n := ⟨_, timestampOf_encode v t hv⟩

theorem upsertVals_nil (k : Str) : upsertVals k [] = [] := rfl

theorem removeVals_nil (k : Str) : removeVals k [] = [] := rfl

theorem addEquiv_pair (old : Option Str) (k : Str) (a b : Payload)
    (ha : ∃ n, timestampOf a.val = some n) (hb : ∃ n, timestampOf b.val = some n)
    (htie : isUpsert a → isUpsert b → a.key = b.key →
      timestampOf a.val = timestampOf b.val → valueOf a.val = valueOf b.val) :
    AddEquiv (regFold old (upsertVals k [a, b])) (regFold old (upsertVals k [b, a])) := by
  simp only [upsertVals_cons, upsertVals_nil]
  by_cases ca : (a.op = ADD ∨ a.op = UPDATE) ∧ a.key = k
  · by_cases cb : (b.op = ADD ∨ b.op = UPDATE) ∧ b.key = k
    · simp only [ca, cb, and_self, if_true, regFold_cons]
      refine Or.inr ⟨_, _, rfl, rfl, pick2_ts old a.val b.val, pick2_val old a.val b.val ?_⟩
      intro hts
      apply htie ca.1 cb.1 (ca.2.trans cb.2.symm)
      rw [timestampOf_eq_tsD ha, timestampOf_eq_tsD hb, hts]
    · simp only [ca, cb, and_self, if_true, if_false]
      exact addEquiv_refl _
  · by_cases cb : (b.op = ADD ∨ b.op = UPDATE) ∧ b.key = k
    · simp only [ca, cb, and_self, if_true, if_false]
      exact addEquiv_refl _
    · simp only [ca, cb, if_false]
      exact addEquiv_refl _

theorem remEquiv_pair (old : Option Str) (k : Str) (a b : Payload) :
    RemEquiv (regFold old (removeVals k [a, b])) (regFold old (removeVals k [b, a])) := by
  simp only [removeVals_cons, removeVals_nil]
  by_cases ca : a.op = REMOVE ∧ a.key = k
  · by_cases cb : b.op = REMOVE ∧ b.key = k
    · simp only [ca, cb, and_self, if_true, regFold_cons]
      exact Or.inr ⟨_, _, rfl, rfl, pick2_ts old _ _⟩
    · simp only [ca, cb, and_self, if_true, if_false]
      exact remEquiv_refl _
  · by_cases cb : b.op = REMOVE ∧ b.key = k
    · simp only [ca, cb, and_self, if_true, if_false]
      exact remEquiv_refl _
    · simp only [ca, cb, if_false]
      exact remEquiv_refl _

/-- Two payloads with timestamps, applied in both orders to a state that satisfies the
invariant, give the same view, unless they tie as upserts of one key with different values. -/
theorem commute_view (s : LWWElementSet) (hs : Inv s) (a b : Payload)
    (ha : ∃ n, timestampOf a.val = some n) (hb : ∃ n, timestampOf b.val = some n)
    (htie : isUpsert a → isUpsert b → a.key = b.key →
      timestampOf a.val = timestampOf b.val → valueOf a.val = valueOf b.val) :
    ∃ r1 r2, (applyAll s [a, b]).bind ViewElements = some r1 ∧
      (applyAll s [b, a]).bind ViewElements = some r2 ∧ SameMap r1 r2 := by
  obtain ⟨s1, h1, i1, a1, r1⟩ := applyAll_spec [a, b] s hs (by
    intro p hp
    rcases List.mem_cons.mp hp with h | h
    · rw [h]; exact ha
    · rw [List.mem_singleton.mp h]; exact hb)
  obtain ⟨s2, h2, i2, a2, r2⟩ := applyAll_spec [b, a] s hs (by
    intro p hp
    rcases List.mem_cons.mp hp with h | h
    · rw [h]; exact hb
    · rw [List.mem_singleton.mp h]; exact ha)
  obtain ⟨v1, hv1, hl1⟩ := view_spec s1 i1
  obtain ⟨v2, hv2, hl2⟩ := view_spec s2 i2
  refine ⟨v1, v2, by rw [h1]; exact hv1, by rw [h2]; exact hv2, fun k => ?_⟩
  rw [hl1 k, hl2 k, a1 k, a2 k, r1 k, r2 k]
  exact viewAt_congr _ _ _ _ (addEquiv_pair _ k a b ha hb htie) (remEquiv_pair _ k a b)

theorem shownAfter_eq (ps : List Payload) (k : Str)
    (hps : ∀ p ∈ ps, ∃ n, timestampOf p.val = some n) :
    shownAfter ps k =
      some (viewAt (regFold none (upsertVals k ps)) (regFold none (removeVals k ps))) := by
  obtain ⟨s2, h2, i2, a2, r2⟩ := applyAll_spec ps CreateLWWElementSet inv_empty hps
  obtain ⟨r, hr, hl⟩ := view_spec s2 i2
  have e1 : CreateLWWElementSet.addOperations.lookup k = none := AList.lookup_empty k
  have e2 : CreateLWWElementSet.removeOperations.lookup k = none := AList.lookup_empty k
  simp only [shownAfter, h2, Option.some_bind, hr, Option.map_some', hl k, a2 k, r2 k, e1, e2]

theorem upsert_twice (s : LWWElementSet) (p : Payload) (hs : Inv s)
    (hp : ∃ n, timestampOf p.val = some n) :
    ∃ s1, UpsertElement s p = some s1 ∧ UpsertElement s1 p = some s1 := by
  refine ⟨_, UpsertElement_eq s p hs hp, ?_⟩
  rw [UpsertElement_eq _ p (inv_upsert s p hs hp) hp]
  simp only [AList.lookup_insert, pick_idem, AList.insert_insert]

theorem remove_twice (s : LWWElementSet) (p : Payload) (hs : Inv s)
    (hp : ∃ n, timestampOf p.val = some n) :
    ∃ s1, RemoveElement s p = some s1 ∧ RemoveElement s1 p = some s1 := by
  refine ⟨_, RemoveElement_eq s p hs hp, ?_⟩
  rw [RemoveElement_eq _ p (inv_remove s p hs) hp]
  simp only [AList.lookup_insert, pick_idem, AList.insert_insert]

theorem regFold_single (x : Str) : regFold none [x] = some x := rfl

theorem regFold_two (x y : Str) : regFold none [x, y] = some (pick (some x) y) := rfl

theorem remove_not_upsert : ¬ ((REMOVE = ADD ∨ REMOVE = UPDATE)) := by decide

theorem add_not_remove : ¬ (ADD = REMOVE) := by decide

/-- What is shown under `k` after an add of `(k, v)` at `t1` and a remove of `k` at `t2`
reached an empty element set, in either order: `v`, unless the remove's parsed timestamp is
strictly greater. -/
theorem shown_add_remove (k v w c1 c2 : Str) (t1 t2 : Nat) (hv : '#' ∉ v) (hw : '#' ∉ w) :
    shownAfter [CreatePayload k (encode v t1) ADD c1,
        CreatePayload k (encode w t2) REMOVE c2] k =
        some (if min (t2 : Int) maxInt > min (t1 : Int) maxInt then none else some v) ∧
      shownAfter [CreatePayload k (encode w t2) REMOVE c2,
        CreatePayload k (encode v t1) ADD c1] k =
        some (if min (t2 : Int) maxInt > min (t1 : Int) maxInt then none else some v) := by
  have h1 : ∀ p ∈ [CreatePayload k (encode v t1) ADD c1,
      CreatePayload k (encode w t2) REMOVE c2], ∃ n, timestampOf p.val = some n := by
    intro p hp
    rcases List.mem_cons.mp hp with h | h
    · rw [h]; exact hasTs_encode v t1 hv
    · rw [List.mem_singleton.mp h]; exact hasTs_encode w t2 hw
  have h2 : ∀ p ∈ [CreatePayload k (encode w t2) REMOVE c2,
      CreatePayload k (encode v t1) ADD c1], ∃ n, timestampOf p.val = some n := by
    intro p hp
    rcases List.mem_cons.mp hp with h | h
    · rw [h]; exact hasTs_encode w t2 hw
    · rw [List.mem_singleton.mp h]; exact hasTs_encode v t1 hv
  rw [shownAfter_eq _ k h1, shownAfter_eq _ k h2]
  simp only [upsertVals_cons, removeVals_cons, upsertVals_nil, removeVals_nil, CreatePayload,
    remove_not_upsert, add_not_remove, true_or, true_and, false_and, if_true, if_false,
    regFold_single, viewAt, removalEntry_encode w t2 hw, tsD_encode v t1 hv,
    tsD_encode REMOVAL_VALUE t2 removal_no_hash, valueOf_encode v t1 hv, and_self]

/-- What is shown under `k` after two adds of `k` reached an empty element set: the value of
the second, unless the first has a strictly greater parsed timestamp. -/
theorem shown_add_add (k v1 v2 c1 c2 : Str) (t1 t2 : Nat) (hv1 : '#' ∉ v1) (hv2 : '#' ∉ v2) :
    shownAfter [CreatePayload k (encode v1 t1) ADD c1,
        CreatePayload k (encode v2 t2) ADD c2] k =
      some (if min (t1 : Int) maxInt > min (t2 : Int) maxInt then some v1 else some v2) := by
  have h1 : ∀ p ∈ [CreatePayload k (encode v1 t1) ADD c1,
      CreatePayload k (encode v2 t2) ADD c2], ∃ n, timestampOf p.val = some n := by
    intro p hp
    rcases List.mem_cons.mp hp with h | h
    · rw [h]; exact hasTs_encode v1 t1 hv1
    · rw [List.mem_singleton.mp h]; exact hasTs_encode v2 t2 hv2
  rw [shownAfter_eq _ k h1]
  simp only [upsertVals_cons, removeVals_cons, upsertVals_nil, removeVals_nil, CreatePayload,
    add_not_remove, true_or, true_and, false_and, if_true, if_false,
    regFold_two, pick, tsD_encode v1 t1 hv1, tsD_encode v2 t2 hv2]
  split_ifs
  · simp [regFold, viewAt, valueOf_encode v1 t1 hv1]
  · simp [regFold, viewAt, valueOf_encode v2 t2 hv2]

theorem registryLe_refl (m : GoMap) (hm : HasTimestamps m) : RegistryLe m m := by
  intro k e he
  exact ⟨e, tsD e, tsD e, he, timestampOf_eq_tsD (hm k e he), timestampOf_eq_tsD (hm k e he),
    le_refl _⟩

theorem registryLe_insert_pick (m : GoMap) (key val : Str) (hm : HasTimestamps m)
    (hv : ∃ n, timestampOf val = some n) :
    RegistryLe m (m.insert key (pick (m.lookup key) val)) := by
  intro k e he
  by_cases hk : k = key
  · subst hk
    refine ⟨pick (some e) val, tsD e, tsD (pick (some e) val), ?_, timestampOf_eq_tsD (hm k e he),
      timestampOf_eq_tsD (hasTs_pick _ _ hv (fun x hx => by cases hx; exact hm k e he)),
      tsD_pick_ge_old e val⟩
    rw [AList.lookup_insert, he]
  · refine ⟨e, tsD e, tsD e, ?_, timestampOf_eq_tsD (hm k e he), timestampOf_eq_tsD (hm k e he),
      le_refl _⟩
    rw [AList.lookup_insert_ne hk, he]

theorem contains_of_timestampOf (e : Str) (h : ∃ n, timestampOf e = some n) :
    Contains e SEPARATOR = true := by
  obtain ⟨n, hn⟩ := h
  cases hi : Index e SEPARATOR with
  | some m => simp [Contains, hi]
  | none =>
    have hs : Split e SEPARATOR = [e] := by
      unfold Split
      cases e.length with
      | zero => rfl
      | succ n => simp [genSplit, hi]
    simp [timestampOf, hs, index] at hn

/-! ## Properties of the element set -/

/-- C1, the code at the failing input: two adds of key `k` with the same timestamp 5, one
with value `x` and one with value `y`, reach an empty element set; the one applied last is
the one shown, so the two orders give different views. -/
theorem C1_tie_between_adds_depends_on_order :
    shownAfter [CreatePayload ['k'] (encode ['x'] 5) ADD ['a'],
        CreatePayload ['k'] (encode ['y'] 5) ADD ['b']] ['k'] = some (some ['y']) ∧
      shownAfter [CreatePayload ['k'] (encode ['y'] 5) ADD ['b'],
        CreatePayload ['k'] (encode ['x'] 5) ADD ['a']] ['k'] = some (some ['x']) := by
  decide

/-- C2, the code at the failing input: the sequences `[x, y, x]` and `[x, y]` of adds of key
`k` at timestamp 5 (values `x` and `y`) contain the same set of payloads, yet the first ends
showing `x` and the second showing `y`. -/
theorem C2_same_set_different_views :
    (∀ p, p ∈ [CreatePayload ['k'] (encode ['x'] 5) ADD ['a'],
          CreatePayload ['k'] (encode ['y'] 5) ADD ['b'],
          CreatePayload ['k'] (encode ['x'] 5) ADD ['a']] ↔
        p ∈ [CreatePayload ['k'] (encode ['x'] 5) ADD ['a'],
          CreatePayload ['k'] (encode ['y'] 5) ADD ['b']]) ∧
      shownAfter [CreatePayload ['k'] (encode ['x'] 5) ADD ['a'],
        CreatePayload ['k'] (encode ['y'] 5) ADD ['b'],
        CreatePayload ['k'] (encode ['x'] 5) ADD ['a']] ['k'] = some (some ['x']) ∧
      shownAfter [CreatePayload ['k'] (encode ['x'] 5) ADD ['a'],
        CreatePayload ['k'] (encode ['y'] 5) ADD ['b']] ['k'] = some (some ['y']) := by
  refine ⟨fun p => ?_, by decide, by decide⟩
  simp only [List.mem_cons, List.mem_singleton, List.not_mem_nil, or_false]
  tauto

/-- C3: on every state reachable by well-formed payloads, applying a well-formed payload a
second time, with `UpsertElement` or with `RemoveElement`, changes neither registry, so the
`ViewElements` result is the one after the first application. -/
theorem C3_idempotence (s : LWWElementSet) (hs : Reachable s) (p : Payload)
    (hp : WellFormed p) :
    (∃ s1 s2, UpsertElement s p = some s1 ∧ UpsertElement s1 p = some s2 ∧
      s2.addOperations = s1.addOperations ∧ s2.removeOperations = s1.removeOperations ∧
      ViewElements s2 = ViewElements s1) ∧
    (∃ s1 s2, RemoveElement s p = some s1 ∧ RemoveElement s1 p = some s2 ∧
      s2.addOperations = s1.addOperations ∧ s2.removeOperations = s1.removeOperations ∧
      ViewElements s2 = ViewElements s1) := by
  have hinv := inv_of_reachable s hs
  have hts := hasTs_of_wellFormed p hp
  obtain ⟨u1, hu1, hu2⟩ := upsert_twice s p hinv hts
  obtain ⟨d1, hd1, hd2⟩ := remove_twice s p hinv hts
  exact ⟨⟨u1, u1, hu1, hu2, rfl, rfl, rfl⟩, ⟨d1, d1, hd1, hd2, rfl, rfl, rfl⟩⟩

/-- C3, witness: the payload `(k, x####5)` applied twice to the empty element set. -/
theorem C3_idempotence_witness :
    (∃ s1 s2, UpsertElement CreateLWWElementSet (CreatePayload ['k'] (encode ['x'] 5) ADD ['a'])
        = some s1 ∧
      UpsertElement s1 (CreatePayload ['k'] (encode ['x'] 5) ADD ['a']) = some s2 ∧
      s2.addOperations = s1.addOperations ∧ s2.removeOperations = s1.removeOperations ∧
      ViewElements s2 = ViewElements s1) ∧
    (∃ s1 s2, RemoveElement CreateLWWElementSet (CreatePayload ['k'] (encode ['x'] 5) ADD ['a'])
        = some s1 ∧
      RemoveElement s1 (CreatePayload ['k'] (encode ['x'] 5) ADD ['a']) = some s2 ∧
      s2.addOperations = s1.addOperations ∧ s2.removeOperations = s1.removeOperations ∧
      ViewElements s2 = ViewElements s1) :=
  C3_idempotence CreateLWWElementSet ⟨[], by simp, rfl⟩
    (CreatePayload ['k'] (encode ['x'] 5) ADD ['a']) ⟨['x'], 5, by decide, rfl⟩

theorem encode_inj (v w : Str) (t u : Nat) (hv : '#' ∉ v) (hw : '#' ∉ w)
    (h : encode v t = encode w u) : v = w ∧ FormatInt (t : Int) = FormatInt (u : Int) := by
  have h2 := congrArg (fun x => Split x SEPARATOR) h
  simp only [Split_encode v t hv, Split_encode w u hw, List.cons.injEq, and_true] at h2
  exact h2

theorem entries_of_reachable (s : LWWElementSet) (hs : Reachable s) :
    (∀ k e, s.addOperations.lookup k = some e → ∃ v t, '#' ∉ v ∧ e = encode v t) ∧
      (∀ k e, s.removeOperations.lookup k = some e → ∃ t, e = encode REMOVAL_VALUE t) := by
  obtain ⟨ps, hps, hrun⟩ := hs
  obtain ⟨s2, h2, -, ha, hr⟩ := applyAll_spec ps CreateLWWElementSet inv_empty
    (fun p hp => hasTs_of_wellFormed p (hps p hp))
  rw [hrun] at h2
  cases h2
  constructor
  · intro k e he
    have e1 : CreateLWWElementSet.addOperations.lookup k = none := AList.lookup_empty k
    rw [ha k, e1] at he
    rcases regFold_mem none _ e he with h | h
    · cases h
    · obtain ⟨p, hp, -, hval⟩ := (mem_upsertVals k e ps).mp h
      obtain ⟨v, t, hv, hpv⟩ := hps p hp
      exact ⟨v, t, hv, by rw [← hval, hpv]⟩
  · intro k e he
    have e2 : CreateLWWElementSet.removeOperations.lookup k = none := AList.lookup_empty k
    rw [hr k, e2] at he
    rcases regFold_mem none _ e he with h | h
    · cases h
    · obtain ⟨p, hp, -, hval⟩ := (mem_removeVals k e ps).mp h
      obtain ⟨v, t, hv, hpv⟩ := hps p hp
      exact ⟨t, by rw [← hval, hpv, removalEntry_encode v t hv]⟩

/-- C4, counterexample: after the add `(k, v)` at timestamp `2^63 - 1` and the remove of `k`
at timestamp `2^63` the registries hold these two entries; the add entry's timestamp is
below the remove entry's, yet `ViewElements` maps `k` to `v`. -/
theorem C4_key_shown_below_remove_timestamp :
    (applyAll CreateLWWElementSet
        [CreatePayload ['k'] (encode ['v'] 9223372036854775807) ADD ['a'],
          CreatePayload ['k'] (encode [] 9223372036854775808) REMOVE ['b']]).map
      (fun s => (s.addOperations.lookup ['k'], s.removeOperations.lookup ['k'])) =
        some (some (encode ['v'] 9223372036854775807),
          some (REMOVAL_VALUE ++ SEPARATOR ++
            ['9', '2', '2', '3', '3', '7', '2', '0', '3', '6', '8', '5', '4', '7', '7', '5',
              '8', '0', '8'])) ∧
      shownAfter
        [CreatePayload ['k'] (encode ['v'] 9223372036854775807) ADD ['a'],
          CreatePayload ['k'] (encode [] 9223372036854775808) REMOVE ['b']] ['k'] =
        some (some ['v']) := by
  decide

/-- C4, amended: on every state reachable by well-formed payloads `ViewElements` returns a
map that holds `v` under `k` exactly when the add registry holds an entry `v####t` under `k`
and the remove registry holds no entry under `k` or an entry `-1_REMOVAL####t2` with
`min t2 (2^63 - 1) ≤ min t (2^63 - 1)`: the timestamps are compared as `strconv.Atoi` parses
them, a written timestamp above the largest `int` counting as the largest `int`. Every key of
the result is a key of the add registry. -/
theorem C4_observable_view (s : LWWElementSet) (hs : Reachable s) :
    ∃ r, ViewElements s = some r ∧
      (∀ k v, r.lookup k = some v ↔
        ∃ t : Nat, '#' ∉ v ∧ s.addOperations.lookup k = some (encode v t) ∧
          (s.removeOperations.lookup k = none ∨
            ∃ t2 : Nat, s.removeOperations.lookup k = some (encode REMOVAL_VALUE t2) ∧
              min (t2 : Int) maxInt ≤ min (t : Int) maxInt)) ∧
      (∀ k, k ∈ r → k ∈ s.addOperations) := by
  have hinv := inv_of_reachable s hs
  obtain ⟨hwa, hwr⟩ := entries_of_reachable s hs
  obtain ⟨r, hr, hl⟩ := view_spec s hinv
  have key : ∀ k v, r.lookup k = some v ↔
      ∃ t : Nat, '#' ∉ v ∧ s.addOperations.lookup k = some (encode v t) ∧
        (s.removeOperations.lookup k = none ∨
          ∃ t2 : Nat, s.removeOperations.lookup k = some (encode REMOVAL_VALUE t2) ∧
            min (t2 : Int) maxInt ≤ min (t : Int) maxInt) := by
    intro k v
    rw [hl k]
    cases ha : s.addOperations.lookup k with
    | none => simp [viewAt]
    | some e =>
      obtain ⟨v0, t0, hv0, he⟩ := hwa k e ha
      subst he
      cases hrm : s.removeOperations.lookup k with
      | none =>
        simp only [viewAt, valueOf_encode v0 t0 hv0, Option.some.injEq, true_or, and_true]
        constructor
        · intro h
          subst h
          exact ⟨t0, hv0, rfl⟩
        · rintro ⟨t, hv, h⟩
          exact (encode_inj v0 v t0 t hv0 hv h).1
      | some e2 =>
        obtain ⟨t2, he2⟩ := hwr k e2 hrm
        subst he2
        simp only [viewAt, valueOf_encode v0 t0 hv0, tsD_encode v0 t0 hv0,
          tsD_encode REMOVAL_VALUE t2 removal_no_hash, Option.some.injEq, false_or,
          reduceCtorEq]
        constructor
        · intro h
          by_cases hlt : min (t2 : Int) maxInt > min (t0 : Int) maxInt
          · simp [hlt] at h
          · simp only [hlt, if_false, Option.some.injEq] at h
            subst h
            exact ⟨t0, hv0, rfl, t2, rfl, by omega⟩
        · rintro ⟨t, hv, h, t3, h3, hle⟩
          obtain ⟨hv1, hf1⟩ := encode_inj v0 v t0 t hv0 hv h
          obtain ⟨-, hf2⟩ := encode_inj REMOVAL_VALUE REMOVAL_VALUE t2 t3 removal_no_hash
            removal_no_hash h3
          have e1 : min (t0 : Int) maxInt = min (t : Int) maxInt := by
            rw [← Atoi_FormatInt, ← Atoi_FormatInt, hf1]
          have e2 : min (t2 : Int) maxInt = min (t3 : Int) maxInt := by
            rw [← Atoi_FormatInt, ← Atoi_FormatInt, hf2]
          have hn : ¬ (min (t2 : Int) maxInt > min (t0 : Int) maxInt) := by
            rw [e1, e2]
            omega
          simp only [hn, if_false, hv1]
  refine ⟨r, hr, key, fun k hk => ?_⟩
  obtain ⟨v, hv⟩ := Option.isSome_iff_exists.mp (AList.lookup_isSome.mpr hk)
  obtain ⟨t, -, he, -⟩ := (key k v).mp hv
  exact AList.lookup_isSome.mp (by rw [he]; rfl)

/-- C4, witness: the state after the add `(k, x####5)` and the remove `(k, ####3)`, where the
two timestamps are compared. -/
theorem C4_observable_view_witness :
    ∃ r, ViewElements
        { InitialSet := ∅
          addOperations := (∅ : GoMap).insert ['k'] (encode ['x'] 5)
          removeOperations := (∅ : GoMap).insert ['k'] (encode REMOVAL_VALUE 3) } = some r ∧
      (∀ k v, r.lookup k = some v ↔
        ∃ t : Nat, '#' ∉ v ∧
          ((∅ : GoMap).insert ['k'] (encode ['x'] 5)).lookup k = some (encode v t) ∧
          (((∅ : GoMap).insert ['k'] (encode REMOVAL_VALUE 3)).lookup k = none ∨
            ∃ t2 : Nat,
              ((∅ : GoMap).insert ['k'] (encode REMOVAL_VALUE 3)).lookup k =
                some (encode REMOVAL_VALUE t2) ∧
              min (t2 : Int) maxInt ≤ min (t : Int) maxInt)) ∧
      (∀ k, k ∈ r → k ∈ (∅ : GoMap).insert ['k'] (encode ['x'] 5)) :=
  C4_observable_view _
    ⟨[CreatePayload ['k'] (encode ['x'] 5) ADD ['a'],
        CreatePayload ['k'] (encode [] 3) REMOVE ['b']],
      by
        intro p hp
        simp only [List.mem_cons, List.mem_singleton, List.not_mem_nil, or_false] at hp
        rcases hp with h | h
        · rw [h]; exact ⟨['x'], 5, by decide, rfl⟩
        · rw [h]; exact ⟨[], 3, by decide, rfl⟩,
      rfl⟩

/-- C5, counterexample (Scenario A): an add of `("a", "1")` and a remove of `"a"`, both at
timestamp 5, reach an empty element set in either order; `"a"` is shown with value `"1"`. -/
theorem C5_tie_shows_the_key :
    shownAfter [CreatePayload ['a'] (encode ['1'] 5) ADD ['r', '1'],
        CreatePayload ['a'] (encode [] 5) REMOVE ['r', '2']] ['a'] = some (some ['1']) ∧
      shownAfter [CreatePayload ['a'] (encode [] 5) REMOVE ['r', '2'],
        CreatePayload ['a'] (encode ['1'] 5) ADD ['r', '1']] ['a'] = some (some ['1']) := by
  decide

/-- C5, amended: the add wins a tie. After an add of `(k, v)` and a remove of `k` with the
same timestamp reached an empty element set, in either order, `ViewElements` maps `k` to
`v`. -/
theorem C5_add_wins_tie (k v w c1 c2 : Str) (t : Nat) (hv : '#' ∉ v) (hw : '#' ∉ w) :
    shownAfter [CreatePayload k (encode v t) ADD c1,
        CreatePayload k (encode w t) REMOVE c2] k = some (some v) ∧
      shownAfter [CreatePayload k (encode w t) REMOVE c2,
        CreatePayload k (encode v t) ADD c1] k = some (some v) := by
  have h := shown_add_remove k v w c1 c2 t t hv hw
  simpa using h

/-- C5, witness: key `a`, value `1`, timestamp 5. -/
theorem C5_add_wins_tie_witness :
    shownAfter [CreatePayload ['a'] (encode ['1'] 5) ADD ['r'],
        CreatePayload ['a'] (encode ['z'] 5) REMOVE ['q']] ['a'] = some (some ['1']) ∧
      shownAfter [CreatePayload ['a'] (encode ['z'] 5) REMOVE ['q'],
        CreatePayload ['a'] (encode ['1'] 5) ADD ['r']] ['a'] = some (some ['1']) :=
  C5_add_wins_tie ['a'] ['1'] ['z'] ['r'] ['q'] 5 (by decide) (by decide)

theorem applyAll_two (s : LWWElementSet) (a b : Payload) :
    applyAll s [a, b] = (applyPayload s a).bind (fun s1 => applyPayload s1 b) := by
  simp only [applyAll]
  cases applyPayload s a with
  | none => rfl
  | some s1 =>
    simp only [Option.some_bind]
    cases applyPayload s1 b <;> rfl

theorem applyPayload_add (s : LWWElementSet) (k val c : Str) :
    applyPayload s (CreatePayload k val ADD c) = UpsertElement s (CreatePayload k val ADD c) := by
  simp [applyPayload, CreatePayload]

theorem applyPayload_remove (s : LWWElementSet) (k val c : Str) :
    applyPayload s (CreatePayload k val REMOVE c) =
      RemoveElement s (CreatePayload k val REMOVE c) := by
  have h : ¬ (REMOVE = ADD) := by decide
  simp [applyPayload, CreatePayload, h]

/-- On every state and for every two payloads, `UpsertElement` and `RemoveElement` give the
same state in both orders, or panic in both. -/
theorem upsert_remove_commute (s : LWWElementSet) (p q : Payload) :
    (UpsertElement s p).bind (fun s1 => RemoveElement s1 q) =
      (RemoveElement s q).bind (fun s1 => UpsertElement s1 p) := by
  cases hx : index (Split q.val SEPARATOR) 1 with
  | none =>
    have h1 : ∀ s1, RemoveElement s1 q = none := fun s1 => by simp [RemoveElement, hx]
    simp only [h1, Option.none_bind]
    cases UpsertElement s p <;> rfl
  | some ts =>
    cases ha : s.addOperations.lookup p.key with
    | none =>
      cases hr : s.removeOperations.lookup q.key with
      | none => simp [UpsertElement, RemoveElement, hx, ha, hr]
      | some r =>
        cases hg : GetLatestValueTimestamp (REMOVAL_VALUE ++ (SEPARATOR ++ ts)) r <;>
          simp [UpsertElement, RemoveElement, hx, ha, hr, hg]
    | some e =>
      cases hf : GetLatestValueTimestamp p.val e with
      | none =>
        cases hr : s.removeOperations.lookup q.key with
        | none => simp [UpsertElement, RemoveElement, hx, ha, hr, hf]
        | some r =>
          cases hg : GetLatestValueTimestamp (REMOVAL_VALUE ++ (SEPARATOR ++ ts)) r <;>
            simp [UpsertElement, RemoveElement, hx, ha, hr, hf, hg]
      | some l =>
        cases hr : s.removeOperations.lookup q.key with
        | none => simp [UpsertElement, RemoveElement, hx, ha, hr, hf]
        | some r =>
          cases hg : GetLatestValueTimestamp (REMOVAL_VALUE ++ (SEPARATOR ++ ts)) r <;>
            simp [UpsertElement, RemoveElement, hx, ha, hr, hf, hg]

/-- C6: on every state, an add of `(k, v)` and a remove of `k` with the same timestamp end in
the same state in both orders (or panic in both), so the `ViewElements` results are the
same; and on a state whose stored entries all hold the separator both orders return, and so
does `ViewElements`. -/
theorem C6_tie_break_determinism (s : LWWElementSet) (k v w c1 c2 : Str) (t : Nat)
    (hv : '#' ∉ v) (hw : '#' ∉ w) :
    applyAll s [CreatePayload k (encode v t) ADD c1, CreatePayload k (encode w t) REMOVE c2] =
        applyAll s [CreatePayload k (encode w t) REMOVE c2,
          CreatePayload k (encode v t) ADD c1] ∧
      (applyAll s [CreatePayload k (encode v t) ADD c1,
          CreatePayload k (encode w t) REMOVE c2]).bind ViewElements =
        (applyAll s [CreatePayload k (encode w t) REMOVE c2,
          CreatePayload k (encode v t) ADD c1]).bind ViewElements ∧
      (Inv s → ∃ s2 r,
        applyAll s [CreatePayload k (encode v t) ADD c1,
          CreatePayload k (encode w t) REMOVE c2] = some s2 ∧
        applyAll s [CreatePayload k (encode w t) REMOVE c2,
          CreatePayload k (encode v t) ADD c1] = some s2 ∧
        ViewElements s2 = some r) := by
  have h1 : applyAll s [CreatePayload k (encode v t) ADD c1,
      CreatePayload k (encode w t) REMOVE c2] =
      applyAll s [CreatePayload k (encode w t) REMOVE c2,
        CreatePayload k (encode v t) ADD c1] := by
    rw [applyAll_two, applyAll_two, applyPayload_add, applyPayload_remove]
    simp only [applyPayload_add, applyPayload_remove]
    exact upsert_remove_commute s _ _
  refine ⟨h1, by rw [h1], fun hinv => ?_⟩
  obtain ⟨s2, h2, i2, -, -⟩ := applyAll_spec
    [CreatePayload k (encode v t) ADD c1, CreatePayload k (encode w t) REMOVE c2] s hinv (by
      intro p hp
      rcases List.mem_cons.mp hp with h | h
      · rw [h]; exact hasTs_encode v t hv
      · rw [List.mem_singleton.mp h]; exact hasTs_encode w t hw)
  obtain ⟨r, hr, -⟩ := view_spec s2 i2
  exact ⟨s2, r, h2, h1 ▸ h2, hr⟩

/-- C6, witness: on the state after the add `(k, x####5)`, an add of `(k, y)` and a remove of
`k`, both at timestamp 9. -/
theorem C6_tie_break_determinism_witness :
    applyAll
        { InitialSet := ∅
          addOperations := (∅ : GoMap).insert ['k'] (encode ['x'] 5)
          removeOperations := ∅ }
        [CreatePayload ['k'] (encode ['y'] 9) ADD ['a'],
          CreatePayload ['k'] (encode [] 9) REMOVE ['b']] =
      applyAll
        { InitialSet := ∅
          addOperations := (∅ : GoMap).insert ['k'] (encode ['x'] 5)
          removeOperations := ∅ }
        [CreatePayload ['k'] (encode [] 9) REMOVE ['b'],
          CreatePayload ['k'] (encode ['y'] 9) ADD ['a']] ∧
      ∃ s2 r,
        applyAll
          { InitialSet := ∅
            addOperations := (∅ : GoMap).insert ['k'] (encode ['x'] 5)
            removeOperations := ∅ }
          [CreatePayload ['k'] (encode ['y'] 9) ADD ['a'],
            CreatePayload ['k'] (encode [] 9) REMOVE ['b']] = some s2 ∧
        applyAll
          { InitialSet := ∅
            addOperations := (∅ : GoMap).insert ['k'] (encode ['x'] 5)
            removeOperations := ∅ }
          [CreatePayload ['k'] (encode [] 9) REMOVE ['b'],
            CreatePayload ['k'] (encode ['y'] 9) ADD ['a']] = some s2 ∧
        ViewElements s2 = some r :=
  ⟨(C6_tie_break_determinism _ ['k'] ['y'] [] ['a'] ['b'] 9 (by decide) (by decide)).1,
    (C6_tie_break_determinism _ ['k'] ['y'] [] ['a'] ['b'] 9 (by decide) (by decide)).2.2
      (inv_of_reachable _
        ⟨[CreatePayload ['k'] (encode ['x'] 5) ADD ['a']],
          by
            intro p hp
            rw [List.mem_singleton.mp hp]
            exact ⟨['x'], 5, by decide, rfl⟩,
          rfl⟩)⟩

/-- C7, counterexample: an add of `(k, v)` at timestamp `2^63 - 1` followed by a remove of
`k` at the greater timestamp `2^63`; both timestamps parse to the largest `int`, and `k` is
still shown. -/
theorem C7_remove_beyond_int_range_is_lost :
    timestampOf (encode ['v'] 9223372036854775807) = some 9223372036854775807 ∧
      timestampOf (encode [] 9223372036854775808) = some 9223372036854775807 ∧
      shownAfter [CreatePayload ['k'] (encode ['v'] 9223372036854775807) ADD ['a'],
        CreatePayload ['k'] (encode [] 9223372036854775808) REMOVE ['b']] ['k'] =
        some (some ['v']) := by
  decide

/-- C7, amended: starting from an empty element set, if `t2 > t1` and `t1` is below the
largest `int` (`2^63 - 1`), then after the add of `(k, v)` at `t1` followed by the remove of
`k` at `t2` the view does not contain `k`; and if `t1 > t2`, then after the add and the
remove in either order the view maps `k` to `v`. -/
theorem C7_round_trip (k v w c1 c2 : Str) (t1 t2 : Nat) (hv : '#' ∉ v) (hw : '#' ∉ w) :
    (t1 < t2 → t1 < 2 ^ 63 - 1 →
      shownAfter [CreatePayload k (encode v t1) ADD c1,
        CreatePayload k (encode w t2) REMOVE c2] k = some none) ∧
    (t2 < t1 →
      shownAfter [CreatePayload k (encode v t1) ADD c1,
          CreatePayload k (encode w t2) REMOVE c2] k = some (some v) ∧
        shownAfter [CreatePayload k (encode w t2) REMOVE c2,
          CreatePayload k (encode v t1) ADD c1] k = some (some v)) := by
  obtain ⟨h1, h2⟩ := shown_add_remove k v w c1 c2 t1 t2 hv hw
  rw [maxInt_eq] at h1 h2
  constructor
  · intro hlt hb
    norm_num at hb
    have hgt : min (t2 : Int) 9223372036854775807 > min (t1 : Int) 9223372036854775807 := by
      omega
    rw [h1, if_pos hgt]
  · intro hlt
    have hgt : ¬ (min (t2 : Int) 9223372036854775807 > min (t1 : Int) 9223372036854775807) := by
      omega
    rw [h1, h2, if_neg hgt]
    exact ⟨rfl, rfl⟩

/-- C7, witness: timestamps 3 and 7 for the removed case, 7 and 3 for the kept case. -/
theorem C7_round_trip_witness :
    shownAfter [CreatePayload ['k'] (encode ['v'] 3) ADD ['a'],
        CreatePayload ['k'] (encode [] 7) REMOVE ['b']] ['k'] = some none ∧
      (shownAfter [CreatePayload ['k'] (encode ['v'] 7) ADD ['a'],
          CreatePayload ['k'] (encode [] 3) REMOVE ['b']] ['k'] = some (some ['v']) ∧
        shownAfter [CreatePayload ['k'] (encode [] 3) REMOVE ['b'],
          CreatePayload ['k'] (encode ['v'] 7) ADD ['a']] ['k'] = some (some ['v'])) :=
  ⟨(C7_round_trip ['k'] ['v'] [] ['a'] ['b'] 3 7 (by decide) (by decide)).1
      (by decide) (by decide),
    (C7_round_trip ['k'] ['v'] [] ['a'] ['b'] 7 3 (by decide) (by decide)).2 (by decide)⟩

/-- C8, counterexample: the adds `(k, p)` at timestamp `2^63 - 1` and `(k, q)` at the greater
timestamp `2^63`, the later one applied first; both timestamps parse to the largest `int`,
and `k` ends mapped to `p`, the value with the smaller timestamp. -/
theorem C8_later_add_beyond_int_range_loses :
    shownAfter [CreatePayload ['k'] (encode ['q'] 9223372036854775808) ADD ['b'],
        CreatePayload ['k'] (encode ['p'] 9223372036854775807) ADD ['a']] ['k'] =
      some (some ['p']) := by
  decide

/-- C8, amended: for timestamps `t1 < t2` with `t1` below the largest `int` (`2^63 - 1`),
after the adds `(k, v1)` at `t1` and `(k, v2)` at `t2` reached an empty element set, in
either order, `ViewElements` maps `k` to `v2`. -/
theorem C8_last_writer_wins (k v1 v2 c1 c2 : Str) (t1 t2 : Nat) (hv1 : '#' ∉ v1)
    (hv2 : '#' ∉ v2) (hlt : t1 < t2) (hb : t1 < 2 ^ 63 - 1) :
    shownAfter [CreatePayload k (encode v1 t1) ADD c1,
        CreatePayload k (encode v2 t2) ADD c2] k = some (some v2) ∧
      shownAfter [CreatePayload k (encode v2 t2) ADD c2,
        CreatePayload k (encode v1 t1) ADD c1] k = some (some v2) := by
  have h1 := shown_add_add k v1 v2 c1 c2 t1 t2 hv1 hv2
  have h2 := shown_add_add k v2 v1 c2 c1 t2 t1 hv2 hv1
  rw [maxInt_eq] at h1 h2
  norm_num at hb
  have g1 : ¬ (min (t1 : Int) 9223372036854775807 > min (t2 : Int) 9223372036854775807) := by
    omega
  have g2 : min (t2 : Int) 9223372036854775807 > min (t1 : Int) 9223372036854775807 := by
    omega
  rw [h1, h2, if_neg g1, if_pos g2]
  exact ⟨rfl, rfl⟩

/-- C8, witness (Scenario B): value `1` at timestamp 3, value `2` at timestamp 7. -/
theorem C8_last_writer_wins_witness :
    shownAfter [CreatePayload ['a'] (encode ['1'] 3) ADD ['r'],
        CreatePayload ['a'] (encode ['2'] 7) ADD ['q']] ['a'] = some (some ['2']) ∧
      shownAfter [CreatePayload ['a'] (encode ['2'] 7) ADD ['q'],
        CreatePayload ['a'] (encode ['1'] 3) ADD ['r']] ['a'] = some (some ['2']) :=
  C8_last_writer_wins ['a'] ['1'] ['2'] ['r'] ['q'] 3 7 (by decide) (by decide)
    (by decide) (by decide)

/-- C9: on every state reachable by well-formed payloads, after a further well-formed
`UpsertElement` or `RemoveElement` every key of either registry is still a key of it, and
the timestamp parsed from its entry is at least the one parsed before. -/
theorem C9_registry_monotone (s : LWWElementSet) (hs : Reachable s) (p : Payload)
    (hp : WellFormed p) :
    (∃ s2, UpsertElement s p = some s2 ∧
      RegistryLe s.addOperations s2.addOperations ∧
      RegistryLe s.removeOperations s2.removeOperations) ∧
    (∃ s2, RemoveElement s p = some s2 ∧
      RegistryLe s.addOperations s2.addOperations ∧
      RegistryLe s.removeOperations s2.removeOperations) := by
  have hinv := inv_of_reachable s hs
  have hts := hasTs_of_wellFormed p hp
  exact ⟨⟨_, UpsertElement_eq s p hinv hts,
      registryLe_insert_pick _ _ _ hinv.1 hts, registryLe_refl _ hinv.2⟩,
    ⟨_, RemoveElement_eq s p hinv hts, registryLe_refl _ hinv.1,
      registryLe_insert_pick _ _ _ hinv.2 (hasTs_removalEntry p.val)⟩⟩

/-- C9, witness: on the state after the add `(k, x####5)`, the payload `(k, y####2)`. -/
theorem C9_registry_monotone_witness :
    (∃ s2, UpsertElement
        { InitialSet := ∅
          addOperations := (∅ : GoMap).insert ['k'] (encode ['x'] 5)
          removeOperations := ∅ }
        (CreatePayload ['k'] (encode ['y'] 2) UPDATE ['b']) = some s2 ∧
      RegistryLe ((∅ : GoMap).insert ['k'] (encode ['x'] 5)) s2.addOperations ∧
      RegistryLe ∅ s2.removeOperations) ∧
    (∃ s2, RemoveElement
        { InitialSet := ∅
          addOperations := (∅ : GoMap).insert ['k'] (encode ['x'] 5)
          removeOperations := ∅ }
        (CreatePayload ['k'] (encode ['y'] 2) UPDATE ['b']) = some s2 ∧
      RegistryLe ((∅ : GoMap).insert ['k'] (encode ['x'] 5)) s2.addOperations ∧
      RegistryLe ∅ s2.removeOperations) :=
  C9_registry_monotone _
    ⟨[CreatePayload ['k'] (encode ['x'] 5) ADD ['a']],
      by
        intro p hp
        rw [List.mem_singleton.mp hp]
        exact ⟨['x'], 5, by decide, rfl⟩,
      rfl⟩
    (CreatePayload ['k'] (encode ['y'] 2) UPDATE ['b']) ⟨['y'], 2, by decide, rfl⟩

/-- C10: starting from the empty element set, every sequence of payloads whose values
contain the separator is applied without a panic, `ViewElements` afterwards returns, and
every stored add and remove entry contains the separator. -/
theorem C10_no_index_out_of_range (ps : List Payload)
    (hps : ∀ p ∈ ps, Contains p.val SEPARATOR = true) :
    ∃ s r, applyAll CreateLWWElementSet ps = some s ∧ ViewElements s = some r ∧
      (∀ k e, s.addOperations.lookup k = some e → Contains e SEPARATOR = true) ∧
      (∀ k e, s.removeOperations.lookup k = some e → Contains e SEPARATOR = true) := by
  obtain ⟨s, h1, hinv, -, -⟩ := applyAll_spec ps CreateLWWElementSet inv_empty
    (fun p hp => timestampOf_of_contains p.val (hps p hp))
  obtain ⟨r, hr, -⟩ := view_spec s hinv
  exact ⟨s, r, h1, hr, fun k e he => contains_of_timestampOf e (hinv.1 k e he),
    fun k e he => contains_of_timestampOf e (hinv.2 k e he)⟩

/-- C10, witness: an add whose timestamp part is not a number, a remove whose value holds the
separator twice, and an update. -/
theorem C10_no_index_out_of_range_witness :
    ∃ s r, applyAll CreateLWWElementSet
        [CreatePayload ['k'] ['x', '#', '#', '#', '#', 'n', 'o'] ADD ['a'],
          CreatePayload ['k'] ['#', '#', '#', '#', '4', '#', '#', '#', '#', '#'] REMOVE ['b'],
          CreatePayload ['k'] ['y', '#', '#', '#', '#', '8'] UPDATE ['a']] = some s ∧
      ViewElements s = some r ∧
      (∀ k e, s.addOperations.lookup k = some e → Contains e SEPARATOR = true) ∧
      (∀ k e, s.removeOperations.lookup k = some e → Contains e SEPARATOR = true) :=
  C10_no_index_out_of_range _ (by decide)

/-! ## Properties of clients, applications and the server -/

theorem viewAt_none (r : Option Str) : viewAt none r = none := rfl

theorem GetLatest_mem (v1 v2 l : Str) (h : GetLatestValueTimestamp v1 v2 = some l) :
    l = v1 ∨ l = v2 := by
  unfold GetLatestValueTimestamp at h
  cases h1 : index (Split v1 SEPARATOR) 1 with
  | none => simp [h1] at h
  | some x =>
    cases h2 : index (Split v2 SEPARATOR) 1 with
    | none => simp [h1, h2] at h
    | some y =>
      simp only [h1, h2] at h
      split_ifs at h
      · exact Or.inr (Option.some.inj h).symm
      · exact Or.inl (Option.some.inj h).symm

theorem upsert_keeps_removes (s s2 : LWWElementSet) (p : Payload)
    (h : UpsertElement s p = some s2) : s2.removeOperations = s.removeOperations := by
  unfold UpsertElement at h
  cases ha : s.addOperations.lookup p.key with
  | none =>
    simp only [ha, Option.some.injEq] at h
    rw [← h]
  | some e =>
    cases hg : GetLatestValueTimestamp p.val e with
    | none => simp [ha, hg] at h
    | some l =>
      simp only [ha, hg, Option.some.injEq] at h
      rw [← h]

theorem remove_hasTs (s s2 : LWWElementSet) (p : Payload)
    (hr : HasTimestamps s.removeOperations) (h : RemoveElement s p = some s2) :
    HasTimestamps s2.removeOperations := by
  unfold RemoveElement at h
  cases hx : index (Split p.val SEPARATOR) 1 with
  | none => simp [hx] at h
  | some ts =>
    have hval : ∃ n, timestampOf (REMOVAL_VALUE ++ SEPARATOR ++ ts) = some n :=
      timestampOf_of_contains _ (contains_removal ts)
    cases hl : s.removeOperations.lookup p.key with
    | none =>
      simp only [hx, hl, Option.some.injEq] at h
      rw [← h]
      exact hasTimestamps_insert _ _ _ hr hval
    | some e =>
      cases hg : GetLatestValueTimestamp (REMOVAL_VALUE ++ SEPARATOR ++ ts) e with
      | none =>
        simp only [hx, hl, hg] at h
        cases h
      | some l =>
        simp only [hx, hl, hg, Option.some.injEq] at h
        rw [← h]
        apply hasTimestamps_insert _ _ _ hr
        rcases GetLatest_mem _ _ _ hg with h1 | h1
        · rw [h1]; exact hval
        · rw [h1]; exact hr _ _ hl

theorem applyPayload_hasTs (s s2 : LWWElementSet) (p : Payload)
    (hr : HasTimestamps s.removeOperations) (h : applyPayload s p = some s2) :
    HasTimestamps s2.removeOperations := by
  unfold applyPayload at h
  split_ifs at h
  · rw [upsert_keeps_removes s s2 p h]; exact hr
  · exact remove_hasTs s s2 p hr h
  · rw [upsert_keeps_removes s s2 p h]; exact hr
  · cases h; exact hr

theorem applyAll_hasTs (ps : List Payload) (s s2 : LWWElementSet)
    (hr : HasTimestamps s.removeOperations) (h : applyAll s ps = some s2) :
    HasTimestamps s2.removeOperations := by
  induction ps generalizing s with
  | nil =>
    cases h
    exact hr
  | cons p ps ih =>
    unfold applyAll at h
    cases hp : applyPayload s p with
    | none => simp [hp] at h
    | some s1 =>
      simp only [hp] at h
      exact ih s1 (applyPayload_hasTs s s1 p hr hp) h

/-- In every state reachable from the empty set, by payloads of any kind, every remove entry
holds the separator. -/
theorem hasTs_of_reachableFromEmpty (s : LWWElementSet) (hs : ReachableFromEmpty s) :
    HasTimestamps s.removeOperations := by
  obtain ⟨ps, hps⟩ := hs
  exact applyAll_hasTs ps CreateLWWElementSet s hasTimestamps_empty hps

theorem RemoveElement_eq_of_removes (s : LWWElementSet) (p : Payload)
    (hr : HasTimestamps s.removeOperations) (hp : ∃ n, timestampOf p.val = some n) :
    RemoveElement s p = some { s with
      removeOperations := s.removeOperations.insert p.key
        (pick (s.removeOperations.lookup p.key) (removalEntry p.val)) } := by
  obtain ⟨n, hn⟩ := hp
  cases hx : index (Split p.val SEPARATOR) 1 with
  | none => simp [timestampOf, hx] at hn
  | some x =>
    have hre : removalEntry p.val = REMOVAL_VALUE ++ SEPARATOR ++ x := by
      simp [removalEntry, hx]
    unfold RemoveElement
    simp only [hx]
    rw [← hre]
    cases h : s.removeOperations.lookup p.key with
    | none => simp [pick]
    | some e =>
      simp only [GetLatest_eq _ e (hasTs_removalEntry p.val) (hr _ _ h), pick]

theorem viewStep_congr (rem rem2 acc : GoMap) (e : Sigma fun _ : Str => Str)
    (h : rem2.lookup e.1 = rem.lookup e.1) : viewStep rem2 acc e = viewStep rem acc e := by
  unfold viewStep
  rw [h]

theorem view_fold_congr (rem rem2 : GoMap) (es : List (Sigma fun _ : Str => Str))
    (acc : GoMap) (h : ∀ e ∈ es, rem2.lookup e.1 = rem.lookup e.1) :
    es.foldlM (viewStep rem2) acc = es.foldlM (viewStep rem) acc := by
  induction es generalizing acc with
  | nil => rfl
  | cons x xs ih =>
    rw [List.foldlM_cons, List.foldlM_cons, viewStep_congr rem rem2 acc x (h x (by simp))]
    cases viewStep rem acc x with
    | none => rfl
    | some acc2 => exact ih acc2 (fun e he => h e (by simp [he]))

theorem viewStep_lookup (rem acc acc2 : GoMap) (e : Sigma fun _ : Str => Str) (k : Str)
    (h : viewStep rem acc e = some acc2) (hk : k ≠ e.1) : acc2.lookup k = acc.lookup k := by
  unfold viewStep at h
  cases hr : rem.lookup e.1 with
  | none =>
    simp only [hr, Option.map_eq_some'] at h
    obtain ⟨v, -, hv⟩ := h
    rw [← hv]
    exact AList.lookup_insert_ne hk
  | some e2 =>
    cases hg : GetLatestValueTimestamp e.2 e2 with
    | none => simp [hr, hg] at h
    | some l =>
      simp only [hr, hg] at h
      split_ifs at h
      · simp only [Option.map_eq_some'] at h
        obtain ⟨v, -, hv⟩ := h
        rw [← hv]
        exact AList.lookup_insert_ne hk
      · cases h
        rfl

theorem view_fold_lookup (rem : GoMap) (es : List (Sigma fun _ : Str => Str))
    (acc r : GoMap) (k : Str) (h : es.foldlM (viewStep rem) acc = some r)
    (hk : ∀ e ∈ es, k ≠ e.1) : r.lookup k = acc.lookup k := by
  induction es generalizing acc with
  | nil =>
    cases h
    rfl
  | cons x xs ih =>
    rw [List.foldlM_cons] at h
    cases hx : viewStep rem acc x with
    | none =>
      rw [hx] at h
      cases h
    | some acc2 =>
      rw [hx] at h
      rw [ih acc2 h (fun e he => hk e (by simp [he]))]
      exact viewStep_lookup rem acc acc2 x k hx (hk x (by simp))

/-- C11, counterexample: after `UpsertElement(j, "x")` and `RemoveElement(j, "####1")` the key
`k` has never been added; `RemoveElement(k, "####2")` returns, and `ViewElements` afterwards
panics on the add entry `x`, which has no separator. -/
theorem C11_view_panics_after_remove :
    (applyAll CreateLWWElementSet
        [CreatePayload ['j'] ['x'] ADD ['a'],
          CreatePayload ['j'] (encode [] 1) REMOVE ['a']]).map
      (fun s =>
        (s.addOperations.lookup ['k'],
          (RemoveElement s (CreatePayload ['k'] (encode [] 2) REMOVE ['a'])).map
            (fun s2 => (ViewElements s2).isSome))) =
      some (none, some false) := by
  decide

/-- C11, amended (Scenario D): on every state reachable from the empty set on which
`ViewElements` returns and whose add registry has no entry for the payload's key,
`RemoveElement` of a well-formed payload returns, `ViewElements` afterwards returns and does
not contain the key, and every other key is shown as before. -/
theorem C11_remove_of_never_added_key (s : LWWElementSet) (hs : ReachableFromEmpty s)
    (r : GoMap) (hview : ViewElements s = some r) (p : Payload) (hp : WellFormed p)
    (hk : s.addOperations.lookup p.key = none) :
    ∃ s2 r2, RemoveElement s p = some s2 ∧ ViewElements s2 = some r2 ∧
      r2.lookup p.key = none ∧ ∀ k, k ≠ p.key → r2.lookup k = r.lookup k := by
  have hr := hasTs_of_reachableFromEmpty s hs
  have hts := hasTs_of_wellFormed p hp
  have hne : ∀ e ∈ s.addOperations.entries, p.key ≠ e.1 := by
    intro e he heq
    obtain ⟨k, v⟩ := e
    have hl : s.addOperations.lookup k = some v := AList.mem_lookup_iff.mpr he
    simp only at heq
    rw [← heq, hk] at hl
    cases hl
  have hsame : ViewElements { s with
      removeOperations := s.removeOperations.insert p.key
        (pick (s.removeOperations.lookup p.key) (removalEntry p.val)) } = ViewElements s := by
    unfold ViewElements
    exact view_fold_congr _ _ _ _ (fun e he => AList.lookup_insert_ne (hne e he).symm)
  refine ⟨_, r, RemoveElement_eq_of_removes s p hr hts, by rw [hsame, hview], ?_,
    fun k _ => rfl⟩
  unfold ViewElements at hview
  rw [view_fold_lookup _ _ _ r p.key hview hne]
  exact AList.lookup_empty _

/-- C11, witness: on the state after `UpsertElement(j, "x")`, whose add entry has no
separator, a remove of the key `z`, which was never added. -/
theorem C11_remove_of_never_added_key_witness :
    ∃ s2 r2,
      RemoveElement
        { InitialSet := ∅
          addOperations := (∅ : GoMap).insert ['j'] ['x']
          removeOperations := ∅ }
        (CreatePayload ['z'] (encode [] 8) REMOVE ['b']) = some s2 ∧
      ViewElements s2 = some r2 ∧
      r2.lookup (CreatePayload ['z'] (encode [] 8) REMOVE ['b']).key = none ∧
      ∀ k, k ≠ (CreatePayload ['z'] (encode [] 8) REMOVE ['b']).key →
        r2.lookup k = ((∅ : GoMap).insert ['j'] ['x']).lookup k :=
  C11_remove_of_never_added_key
    { InitialSet := ∅
      addOperations := (∅ : GoMap).insert ['j'] ['x']
      removeOperations := ∅ }
    ⟨[CreatePayload ['j'] ['x'] ADD ['a']], rfl⟩
    ((∅ : GoMap).insert ['j'] ['x']) rfl
    (CreatePayload ['z'] (encode [] 8) REMOVE ['b']) ⟨[], 8, by decide, rfl⟩ (by decide)

/-- C12, the code at the failing input: a freshly created application processes the add
`(k, x####5)`; a client that joins afterwards is handed the `data` field, which is still the
empty map, while `ViewElements` of the application's element set maps `k` to `x`. -/
theorem C12_join_returns_stale_data :
    (ListenToPayloads (newApplication 0)
        [CreatePayload ['k'] (encode ['x'] 5) ADD ['a']]).map
      (fun done =>
        ((AddListenerClient done.1 ['c'] 1).2.1.lookup ['k'],
          (ViewElements done.1.lww).map (fun view => view.lookup ['k']))) =
      some (none, some (some ['x'])) := by
  decide

/-- C13, the code at the failing input: an element set built with the initial set
`{a: 1}`, and a client that holds it, show the empty view: `ViewElements` does not read
`InitialSet`. -/
theorem C13_initial_set_not_shown :
    (CreateLWWElementSetWithInitial ((∅ : GoMap).insert ['a'] ['1'])).InitialSet.lookup ['a'] =
        some ['1'] ∧
      (ViewElements (CreateLWWElementSetWithInitial ((∅ : GoMap).insert ['a'] ['1']))).map
        (fun view => view.lookup ['a']) = some none ∧
      (GetCurrentState
        { GetClient ['c'] 1 with
          elementSet := CreateLWWElementSetWithInitial ((∅ : GoMap).insert ['a'] ['1']) }).map
        (fun view => view.entries) = some [] := by
  decide

/-- C14, counterexample: an application whose only session is that of client `c` processes a
payload sent by `c`; the payload is sent to the listener of `c`. -/
theorem C14_originator_receives_its_payload :
    (processPayload
        { newApplication 0 with activeSessions := (∅ : Sessions).insert ['c'] 7 }
        (CreatePayload ['k'] (encode ['x'] 5) ADD ['c'])).map (fun done => done.2) =
      some [{ clientId := ['c'], listener := 7,
              payload := CreatePayload ['k'] (encode ['x'] 5) ADD ['c'] }] := by
  decide

theorem mem_fanOut (sessions : Sessions) (p : Payload) (d : Delivery) :
    d ∈ fanOut sessions p ↔ d.payload = p ∧ sessions.lookup d.clientId = some d.listener := by
  obtain ⟨c, l, q⟩ := d
  simp only [fanOut, List.mem_map]
  constructor
  · rintro ⟨⟨c2, l2⟩, hmem, heq⟩
    simp only [Delivery.mk.injEq] at heq
    obtain ⟨h1, h2, h3⟩ := heq
    subst h1 h2 h3
    exact ⟨rfl, AList.mem_lookup_iff.mpr hmem⟩
  · rintro ⟨h1, h2⟩
    subst h1
    exact ⟨⟨c, l⟩, AList.mem_lookup_iff.mp h2, rfl⟩

theorem fanOut_clientIds (sessions : Sessions) (p : Payload) :
    (fanOut sessions p).map (fun d => d.clientId) = sessions.keys := by
  simp [fanOut, AList.keys, List.keys, List.map_map, Function.comp_def]

/-- C14, amended: for every application whose element set is reachable by well-formed
payloads and every well-formed payload `p`, one processing step applies `p` to the element
set and sends `p` once to the listener of every active session, the session of
`p.clientId` included. -/
theorem C14_fan_out_to_every_session (app : Application) (hs : Reachable app.lww)
    (p : Payload) (hp : WellFormed p) :
    ∃ lww2 ds, applyPayload app.lww p = some lww2 ∧
      processPayload app p = some ({ app with lww := lww2 }, ds) ∧
      (∀ c l, app.activeSessions.lookup c = some l →
        { clientId := c, listener := l, payload := p } ∈ ds) ∧
      (∀ d ∈ ds, d.payload = p ∧ app.activeSessions.lookup d.clientId = some d.listener) ∧
      (ds.map (fun d => d.clientId)).Nodup := by
  obtain ⟨lww2, h1, -⟩ := applyPayload_spec app.lww p (inv_of_reachable _ hs)
    (hasTs_of_wellFormed p hp)
  refine ⟨lww2, fanOut app.activeSessions p, h1, by simp only [processPayload, h1],
    fun c l hl => (mem_fanOut _ _ _).mpr ⟨rfl, hl⟩, fun d hd => (mem_fanOut _ _ _).mp hd, ?_⟩
  rw [fanOut_clientIds]
  exact app.activeSessions.keys_nodup

/-- C14, witness: a fresh application with the sessions of `c` and `d`, and an add sent by
`c`. -/
theorem C14_fan_out_to_every_session_witness :
    ∃ lww2 ds,
      applyPayload
        ({ newApplication 0 with
            activeSessions := ((∅ : Sessions).insert ['c'] 7).insert ['d'] 8 }).lww
        (CreatePayload ['k'] (encode ['x'] 5) ADD ['c']) = some lww2 ∧
      processPayload
        { newApplication 0 with activeSessions := ((∅ : Sessions).insert ['c'] 7).insert ['d'] 8 }
        (CreatePayload ['k'] (encode ['x'] 5) ADD ['c']) =
        some ({ ({ newApplication 0 with
                    activeSessions := ((∅ : Sessions).insert ['c'] 7).insert ['d'] 8 } :
                  Application) with lww := lww2 }, ds) ∧
      (∀ c l,
        ({ newApplication 0 with
            activeSessions := ((∅ : Sessions).insert ['c'] 7).insert ['d'] 8 } :
          Application).activeSessions.lookup c = some l →
        { clientId := c, listener := l,
          payload := CreatePayload ['k'] (encode ['x'] 5) ADD ['c'] } ∈ ds) ∧
      (∀ d ∈ ds, d.payload = CreatePayload ['k'] (encode ['x'] 5) ADD ['c'] ∧
        ({ newApplication 0 with
            activeSessions := ((∅ : Sessions).insert ['c'] 7).insert ['d'] 8 } :
          Application).activeSessions.lookup d.clientId = some d.listener) ∧
      (ds.map (fun d => d.clientId)).Nodup :=
  C14_fan_out_to_every_session
    { newApplication 0 with activeSessions := ((∅ : Sessions).insert ['c'] 7).insert ['d'] 8 }
    ⟨[], by simp, rfl⟩
    (CreatePayload ['k'] (encode ['x'] 5) ADD ['c']) ⟨['x'], 5, by decide, rfl⟩

theorem lookup_insert_chan (m : Sessions) (k k2 : Str) (l : Chan) :
    (m.insert k l).lookup k2 = if k2 = k then some l else m.lookup k2 := by
  by_cases h : k2 = k
  · subst h
    simp [AList.lookup_insert]
  · simp [h, AList.lookup_insert_ne h]

theorem filter_key_kerase (c : Str) (es : List (Sigma fun _ : Str => Chan))
    (hnd : es.NodupKeys) : (List.kerase c es).filter (fun e => e.1 = c) = [] := by
  rw [List.filter_eq_nil_iff]
  intro e he hc
  have hk : e.1 ∈ (List.kerase c es).keys := List.mem_keys_of_mem he
  rw [of_decide_eq_true hc] at hk
  exact List.not_mem_keys_kerase c hnd hk

theorem filter_key_insert (sessions : Sessions) (c : Str) (l : Chan) :
    (sessions.insert c l).entries.filter (fun e => e.1 = c) = [⟨c, l⟩] := by
  rw [AList.insert_entries, List.filter_cons_of_pos (by simp),
    filter_key_kerase c _ sessions.nodupKeys]

/-- C15, counterexample: the sessions hold channel 2 under client `d`; client `c` joins on
channel 1 and re-joins on channel 2. One fan-out then sends the payload to channel 2, the
listener of `c`, twice. -/
theorem C15_shared_listener_receives_twice :
    (fanOut
        (AddListenerClient
          (AddListenerClient
            { newApplication 0 with activeSessions := (∅ : Sessions).insert ['d'] 2 }
            ['c'] 1).1 ['c'] 2).1.activeSessions
        (CreatePayload ['k'] ['x'] ADD ['a'])).filter (fun d => d.listener = 2) =
      [{ clientId := ['c'], listener := 2, payload := CreatePayload ['k'] ['x'] ADD ['a'] },
        { clientId := ['d'], listener := 2, payload := CreatePayload ['k'] ['x'] ADD ['a'] }] := by
  decide

/-- C15, amended: after `AddListenerClient(c, l1)` followed by `AddListenerClient(c, l2)` the
active sessions hold exactly one entry for `c`, with listener `l2`, and hold every other
client id as before; the fan-out of one processing step makes exactly one send for the
session of `c`, to `l2`; and when no other client id is registered with `l2`, the listener
`l2` receives the payload exactly once. -/
theorem C15_rejoin_overwrites (app : Application) (c : Str) (l1 l2 : Chan) (p : Payload) :
    (AddListenerClient (AddListenerClient app c l1).1 c l2).1.activeSessions.lookup c = some l2 ∧
      (AddListenerClient (AddListenerClient app c l1).1 c l2).1.activeSessions.entries.filter
        (fun e => e.1 = c) = [⟨c, l2⟩] ∧
      (∀ c2, c2 ≠ c →
        (AddListenerClient (AddListenerClient app c l1).1 c l2).1.activeSessions.lookup c2 =
          app.activeSessions.lookup c2) ∧
      (fanOut (AddListenerClient (AddListenerClient app c l1).1 c l2).1.activeSessions p).filter
        (fun d => d.clientId = c) = [{ clientId := c, listener := l2, payload := p }] ∧
      ((∀ c2, c2 ≠ c → app.activeSessions.lookup c2 ≠ some l2) →
        (fanOut (AddListenerClient (AddListenerClient app c l1).1 c l2).1.activeSessions
          p).filter (fun d => d.listener = l2) =
          [{ clientId := c, listener := l2, payload := p }]) := by
  have hs : (AddListenerClient (AddListenerClient app c l1).1 c l2).1.activeSessions =
      (app.activeSessions.insert c l1).insert c l2 := rfl
  rw [hs]
  refine ⟨AList.lookup_insert _, filter_key_insert _ c l2, fun c2 hne => ?_, ?_, fun hno => ?_⟩
  · rw [AList.lookup_insert_ne hne, AList.lookup_insert_ne hne]
  · have hf := filter_key_insert (app.activeSessions.insert c l1) c l2
    simp only [fanOut, List.filter_map, Function.comp_def]
    rw [hf]
    rfl
  · have htail : (List.kerase c (app.activeSessions.insert c l1).entries).filter
        (fun e => e.2 = l2) = [] := by
      rw [List.filter_eq_nil_iff]
      intro e he hl
      have hkey : e.1 ≠ c := by
        intro heq
        have hk : e.1 ∈ (List.kerase c (app.activeSessions.insert c l1).entries).keys :=
          List.mem_keys_of_mem he
        rw [heq] at hk
        exact List.not_mem_keys_kerase c (app.activeSessions.insert c l1).nodupKeys hk
      have hmem : e ∈ ((app.activeSessions.insert c l1).insert c l2).entries := by
        rw [AList.insert_entries]
        exact List.mem_cons_of_mem _ he
      obtain ⟨k, l⟩ := e
      have hlk : ((app.activeSessions.insert c l1).insert c l2).lookup k = some l :=
        AList.mem_lookup_iff.mpr hmem
      rw [AList.lookup_insert_ne hkey, AList.lookup_insert_ne hkey] at hlk
      have hl2 : l = l2 := of_decide_eq_true hl
      rw [hl2] at hlk
      exact hno k hkey hlk
    simp only [fanOut, List.filter_map, Function.comp_def]
    rw [AList.insert_entries, List.filter_cons_of_pos (by simp), htail]
    rfl

/-- C15, witness: the sessions hold channel 5 under client `d`; client `c` joins on channel 1
and re-joins on channel 2, which no other client id uses. -/
theorem C15_rejoin_overwrites_witness :
    (fanOut
        (AddListenerClient
          (AddListenerClient
            { newApplication 0 with activeSessions := (∅ : Sessions).insert ['d'] 5 }
            ['c'] 1).1 ['c'] 2).1.activeSessions
        (CreatePayload ['k'] ['x'] ADD ['a'])).filter (fun d => d.listener = 2) =
      [{ clientId := ['c'], listener := 2, payload := CreatePayload ['k'] ['x'] ADD ['a'] }] :=
  (C15_rejoin_overwrites
      { newApplication 0 with activeSessions := (∅ : Sessions).insert ['d'] 5 }
      ['c'] 1 2 (CreatePayload ['k'] ['x'] ADD ['a'])).2.2.2.2
    (by
      intro c2 hne
      show ((∅ : Sessions).insert ['d'] 5).lookup c2 ≠ some 2
      rw [lookup_insert_chan]
      split_ifs
      · decide
      · simp [AList.lookup_empty])

/-- C16: a payload that carries the client's own id is skipped by `ListenForUpdates`: the
client, and with it both registries of its element set, stay as they are, whatever the
payload's op, key and value. -/
theorem C16_echo_is_not_applied (client : Client) (payload : Payload)
    (h : payload.clientId = client.Id) :
    handleUpdate client payload = some client ∧
      ListenForUpdates client [payload] = some client := by
  have h1 : handleUpdate client payload = some client := by
    simp [handleUpdate, h]
  exact ⟨h1, by simp only [ListenForUpdates, h1]⟩

/-- C16, witness: the client `c` receives its own remove whose value has no separator. -/
theorem C16_echo_is_not_applied_witness :
    handleUpdate (GetClient ['c'] 1) (CreatePayload ['k'] ['x'] REMOVE ['c']) =
        some (GetClient ['c'] 1) ∧
      ListenForUpdates (GetClient ['c'] 1) [CreatePayload ['k'] ['x'] REMOVE ['c']] =
        some (GetClient ['c'] 1) :=
  C16_echo_is_not_applied (GetClient ['c'] 1) (CreatePayload ['k'] ['x'] REMOVE ['c']) rfl

/-- C17, the code at the failing input: on a server without any application, and on a server
that holds only the application `test-id`, a join for the id `nope` ends in the nil-pointer
panic; no error value is returned. -/
theorem C17_unknown_dataset_panics :
    (GetRequestedApplication CreateServer ['c'] 1 ['n', 'o', 'p', 'e']).isNone = true ∧
      (GetRequestedApplication (CreateAndRegisterApplication CreateServer 0).2 ['c'] 1
        ['n', 'o', 'p', 'e']).isNone = true := by
  decide

/-- C18, the code at the failing input: a server creates an application and client `c` joins
it; a second `CreateAndRegisterApplication` returns the same id `test-id`, and the hub
registered under that id no longer holds the session of `c`. -/
theorem C18_second_dataset_replaces_first :
    (GetRequestedApplication (CreateAndRegisterApplication CreateServer 0).2 ['c'] 1
        (CreateAndRegisterApplication CreateServer 0).1).map
      (fun joined =>
        ((joined.1.applicationLists.lookup ['t', 'e', 's', 't', '-', 'i', 'd']).map
            (fun app => app.activeSessions.lookup ['c']),
          (CreateAndRegisterApplication joined.1 5).1,
          ((CreateAndRegisterApplication joined.1 5).2.applicationLists.lookup
              ['t', 'e', 's', 't', '-', 'i', 'd']).map
            (fun app => app.activeSessions.lookup ['c']))) =
      some (some (some 1), ['t', 'e', 's', 't', '-', 'i', 'd'], some none) := by
  decide

/-! ## Convergence of the registries and the value encoding -/

theorem wellFormed_of_inRange (p : Payload) (h : InRange p) : WellFormed p := by
  obtain ⟨v, t, hv, -, hval⟩ := h
  exact ⟨v, t, hv, hval⟩

theorem ts_inj_in_range (v1 v2 : Str) (t1 t2 : Nat) (h1 : '#' ∉ v1) (h2 : '#' ∉ v2)
    (b1 : t1 < 2 ^ 63) (b2 : t2 < 2 ^ 63) (h : tsD (encode v1 t1) = tsD (encode v2 t2)) :
    t1 = t2 := by
  rw [tsD_encode v1 t1 h1, tsD_encode v2 t2 h2, maxInt_eq] at h
  norm_num at b1 b2
  omega

theorem regFold_none_eq (vals1 vals2 : List Str) (hset : ∀ v, v ∈ vals1 ↔ v ∈ vals2)
    (hinj : ∀ x ∈ vals1, ∀ y ∈ vals1, tsD x = tsD y → x = y) :
    regFold none vals1 = regFold none vals2 := by
  rcases regFold_none_ts vals1 vals2 hset with ⟨h1, h2⟩ | ⟨e1, e2, h1, h2, m1, m2, hts⟩
  · rw [h1, h2]
  · rw [h1, h2, hinj e1 m1 e2 m2 hts]

/-- C19, counterexample: the adds `(k, x)` at timestamp `2^63` and `(k, y)` at timestamp
`2^63 + 1` carry different timestamps, yet both parse to the largest `int`; applied in the
two orders they end showing `y` and `x`. -/
theorem C19_distinct_timestamps_collide_beyond_int_range :
    shownAfter [CreatePayload ['k'] (encode ['x'] 9223372036854775808) ADD ['a'],
        CreatePayload ['k'] (encode ['y'] 9223372036854775809) ADD ['b']] ['k'] =
        some (some ['y']) ∧
      shownAfter [CreatePayload ['k'] (encode ['y'] 9223372036854775809) ADD ['b'],
        CreatePayload ['k'] (encode ['x'] 9223372036854775808) ADD ['a']] ['k'] =
        some (some ['x']) := by
  decide

/-- C19, amended: two sequences of well-formed payloads whose timestamps fit a 64-bit `int`
and that contain the same set of payloads, in any order and with any repetitions, are
applied to empty element sets; if no two add/update payloads of one key with different
values carry the same timestamp, the two add registries are equal, the two remove
registries are equal and the two `ViewElements` results are equal. -/
theorem C19_convergence_without_collisions (ps qs : List Payload)
    (hps : ∀ p ∈ ps, InRange p) (hset : ∀ p, p ∈ ps ↔ p ∈ qs)
    (hnc : ∀ a ∈ ps, ∀ b ∈ ps, isUpsert a → isUpsert b → a.key = b.key →
      ∀ va vb t, '#' ∉ va → '#' ∉ vb → a.val = encode va t → b.val = encode vb t → va = vb) :
    ∃ s1 s2 r1 r2, applyAll CreateLWWElementSet ps = some s1 ∧
      applyAll CreateLWWElementSet qs = some s2 ∧
      SameMap s1.addOperations s2.addOperations ∧
      SameMap s1.removeOperations s2.removeOperations ∧
      ViewElements s1 = some r1 ∧ ViewElements s2 = some r2 ∧ SameMap r1 r2 := by
  have hts : ∀ p ∈ ps, ∃ n, timestampOf p.val = some n :=
    fun p hp => hasTs_of_wellFormed p (wellFormed_of_inRange p (hps p hp))
  have hqs : ∀ p ∈ qs, ∃ n, timestampOf p.val = some n := fun p hp => hts p ((hset p).mpr hp)
  obtain ⟨s1, h1, i1, a1, r1⟩ := applyAll_spec ps CreateLWWElementSet inv_empty hts
  obtain ⟨s2, h2, i2, a2, r2⟩ := applyAll_spec qs CreateLWWElementSet inv_empty hqs
  obtain ⟨v1, hv1, hl1⟩ := view_spec s1 i1
  obtain ⟨v2, hv2, hl2⟩ := view_spec s2 i2
  have hadd : ∀ k, s1.addOperations.lookup k = s2.addOperations.lookup k := by
    intro k
    have e1 : CreateLWWElementSet.addOperations.lookup k = none := AList.lookup_empty k
    rw [a1 k, a2 k, e1]
    apply regFold_none_eq
    · intro v
      simp only [mem_upsertVals]
      constructor
      · rintro ⟨p, hp, hc⟩
        exact ⟨p, (hset p).mp hp, hc⟩
      · rintro ⟨p, hp, hc⟩
        exact ⟨p, (hset p).mpr hp, hc⟩
    · intro x mx y my hxy
      obtain ⟨pa, hpa, ca, xa⟩ := (mem_upsertVals k x ps).mp mx
      obtain ⟨pb, hpb, cb, xb⟩ := (mem_upsertVals k y ps).mp my
      obtain ⟨va, ta, hva, bta, ea⟩ := hps pa hpa
      obtain ⟨vb, tb, hvb, btb, eb⟩ := hps pb hpb
      rw [← xa, ← xb, ea, eb] at hxy
      have ht := ts_inj_in_range va vb ta tb hva hvb bta btb hxy
      subst ht
      have hval := hnc pa hpa pb hpb ca.1 cb.1 (ca.2.trans cb.2.symm) va vb ta hva hvb ea eb
      rw [← xa, ← xb, ea, eb, hval]
  have hrem : ∀ k, s1.removeOperations.lookup k = s2.removeOperations.lookup k := by
    intro k
    have e2 : CreateLWWElementSet.removeOperations.lookup k = none := AList.lookup_empty k
    rw [r1 k, r2 k, e2]
    apply regFold_none_eq
    · intro v
      simp only [mem_removeVals]
      constructor
      · rintro ⟨p, hp, hc⟩
        exact ⟨p, (hset p).mp hp, hc⟩
      · rintro ⟨p, hp, hc⟩
        exact ⟨p, (hset p).mpr hp, hc⟩
    · intro x mx y my hxy
      obtain ⟨pa, hpa, -, xa⟩ := (mem_removeVals k x ps).mp mx
      obtain ⟨pb, hpb, -, xb⟩ := (mem_removeVals k y ps).mp my
      obtain ⟨va, ta, hva, bta, ea⟩ := hps pa hpa
      obtain ⟨vb, tb, hvb, btb, eb⟩ := hps pb hpb
      rw [ea, removalEntry_encode va ta hva] at xa
      rw [eb, removalEntry_encode vb tb hvb] at xb
      rw [← xa, ← xb] at hxy
      have ht := ts_inj_in_range _ _ ta tb removal_no_hash removal_no_hash bta btb hxy
      rw [← xa, ← xb, ht]
  refine ⟨s1, s2, v1, v2, h1, h2, hadd, hrem, hv1, hv2, fun k => ?_⟩
  rw [hl1 k, hl2 k, hadd k, hrem k]

/-- C19, witness: an add of `k` at timestamp 3 and an update of `k` at timestamp 7, delivered
as `[add, update]` and as `[update, add, update]`. -/
theorem C19_convergence_without_collisions_witness :
    ∃ s1 s2 r1 r2,
      applyAll CreateLWWElementSet [CreatePayload ['k'] (encode ['x'] 3) ADD ['a'],
        CreatePayload ['k'] (encode ['y'] 7) UPDATE ['b']] = some s1 ∧
      applyAll CreateLWWElementSet [CreatePayload ['k'] (encode ['y'] 7) UPDATE ['b'],
        CreatePayload ['k'] (encode ['x'] 3) ADD ['a'],
        CreatePayload ['k'] (encode ['y'] 7) UPDATE ['b']] = some s2 ∧
      SameMap s1.addOperations s2.addOperations ∧
      SameMap s1.removeOperations s2.removeOperations ∧
      ViewElements s1 = some r1 ∧ ViewElements s2 = some r2 ∧ SameMap r1 r2 :=
  C19_convergence_without_collisions
    [CreatePayload ['k'] (encode ['x'] 3) ADD ['a'],
      CreatePayload ['k'] (encode ['y'] 7) UPDATE ['b']]
    [CreatePayload ['k'] (encode ['y'] 7) UPDATE ['b'],
      CreatePayload ['k'] (encode ['x'] 3) ADD ['a'],
      CreatePayload ['k'] (encode ['y'] 7) UPDATE ['b']]
    (by
      intro p hp
      simp only [List.mem_cons, List.mem_singleton, List.not_mem_nil, or_false] at hp
      rcases hp with h | h
      · rw [h]; exact ⟨['x'], 3, by decide, by decide, rfl⟩
      · rw [h]; exact ⟨['y'], 7, by decide, by decide, rfl⟩)
    (by
      intro p
      simp only [List.mem_cons, List.mem_singleton, List.not_mem_nil, or_false]
      tauto)
    (by
      intro a ha b hb
      simp only [List.mem_cons, List.mem_singleton, List.not_mem_nil, or_false] at ha hb
      rcases ha with h | h <;> rcases hb with h2 | h2 <;> rw [h, h2] <;>
        intro _ _ _ va vb t hva hvb ea eb
      · exact ((encode_inj _ _ _ _ hva (by decide) ea.symm).1).trans
          (encode_inj _ _ _ _ (by decide) hvb eb).1
      · exact absurd ((encode_inj _ _ _ _ (by decide) hva ea).2.trans
          (encode_inj _ _ _ _ (by decide) hvb eb).2.symm) (by decide)
      · exact absurd ((encode_inj _ _ _ _ (by decide) hva ea).2.trans
          (encode_inj _ _ _ _ (by decide) hvb eb).2.symm) (by decide)
      · exact ((encode_inj _ _ _ _ hva (by decide) ea.symm).1).trans
          (encode_inj _ _ _ _ (by decide) hvb eb).1)

theorem sep_prefix_append (v w : Str) (hv : v ≠ [])
    (h : SEPARATOR.isPrefixOf (v ++ w) = true) :
    SEPARATOR.isPrefixOf v = true ∨ v.getLast? = some '#' := by
  rcases v with _ | ⟨a, _ | ⟨b, _ | ⟨c, _ | ⟨d, v2⟩⟩⟩⟩
  · exact absurd rfl hv
  · right
    cases w <;> simp_all [SEPARATOR, List.isPrefixOf]
    exact h.1.symm
  · right
    cases w <;> simp_all [SEPARATOR, List.isPrefixOf]
    exact h.2.1.symm
  · right
    cases w <;> simp_all [SEPARATOR, List.isPrefixOf]
    exact h.2.2.1.symm
  · left
    simpa [SEPARATOR, List.isPrefixOf] using h

theorem Index_append_sep_gen (v rest : Str) (hv : Index v SEPARATOR = none)
    (hl : v.getLast? ≠ some '#') :
    Index (v ++ SEPARATOR ++ rest) SEPARATOR = some v.length := by
  induction v with
  | nil => simp [Index, SEPARATOR, List.isPrefixOf]
  | cons c cs ih =>
    have hp : SEPARATOR.isPrefixOf (c :: cs) = false := by
      cases hb : SEPARATOR.isPrefixOf (c :: cs) with
      | false => rfl
      | true => simp [Index, hb] at hv
    have hcs : Index cs SEPARATOR = none := by
      simpa [Index, hp] using hv
    have hl2 : cs.getLast? ≠ some '#' := by
      cases cs with
      | nil => simp
      | cons d ds => simpa [List.getLast?_cons_cons] using hl
    have hq : SEPARATOR.isPrefixOf (c :: cs ++ (SEPARATOR ++ rest)) = false := by
      cases hb : SEPARATOR.isPrefixOf (c :: cs ++ (SEPARATOR ++ rest)) with
      | false => rfl
      | true =>
        rcases sep_prefix_append (c :: cs) (SEPARATOR ++ rest) (by simp) hb with h | h
        · rw [hp] at h
          cases h
        · exact absurd h hl
    have h3 := ih hcs hl2
    simp only [List.append_assoc] at h3 ⊢
    simp only [List.cons_append] at hq ⊢
    simp [Index, hq, h3]

theorem Split_sep_gen (v t : Str) (hv : Index v SEPARATOR = none)
    (hl : v.getLast? ≠ some '#') (ht : '#' ∉ t) :
    Split (v ++ SEPARATOR ++ t) SEPARATOR = [v, t] := by
  have hlen : (v ++ SEPARATOR ++ t).length = (v.length + 3 + t.length) + 1 := by
    simp [SEPARATOR]; omega
  unfold Split
  rw [hlen, genSplit, Index_append_sep_gen v t hv hl]
  have h1 : List.take v.length (v ++ SEPARATOR ++ t) = v := by simp
  have h2 : List.drop (v.length + SEPARATOR.length) (v ++ SEPARATOR ++ t) = t := by
    have : v.length + SEPARATOR.length = (v ++ SEPARATOR).length := by simp
    rw [this, List.drop_left]
  simp only [h1, h2, genSplit_no_hash _ t ht]

/-- C20, counterexample: the value `#` does not contain the separator, yet the payload value
`#` + `####` + `5` is cut at its first four `#`: the key is shown with the empty value and
the parsed timestamp is 0. And the timestamp `2^63` is parsed as `2^63 - 1`. -/
theorem C20_value_ending_in_hash_is_cut :
    Contains ['#'] SEPARATOR = false ∧
      shownAfter [CreatePayload ['k'] (['#'] ++ SEPARATOR ++ FormatInt 5) ADD ['a']] ['k'] =
        some (some []) ∧
      timestampOf (['#'] ++ SEPARATOR ++ FormatInt 5) = some 0 ∧
      timestampOf (['v'] ++ SEPARATOR ++ FormatInt 9223372036854775808) =
        some 9223372036854775807 := by
  decide

/-- C20, amended: for every key `k`, every value `v` that does not contain the separator and
does not end in `#`, and every non-negative integer `t`, after `UpsertElement` of
`(k, v + "####" + decimal(t))` on an empty element set `ViewElements` maps `k` to `v`, and the
timestamp parsed from the stored entry is `t` capped at the largest `int`, hence `t` itself
whenever `t < 2^63`. -/
theorem C20_encoding_round_trip (k v c : Str) (op : Int) (t : Nat)
    (hv : Contains v SEPARATOR = false) (hl : v.getLast? ≠ some '#') :
    ∃ s r e, UpsertElement CreateLWWElementSet
        (CreatePayload k (v ++ SEPARATOR ++ FormatInt (t : Int)) op c) = some s ∧
      ViewElements s = some r ∧ r.lookup k = some v ∧
      s.addOperations.lookup k = some e ∧
      timestampOf e = some (min (t : Int) maxInt) ∧
      (t < 2 ^ 63 → timestampOf e = some (t : Int)) := by
  have hI : Index v SEPARATOR = none := by
    cases h : Index v SEPARATOR with
    | none => rfl
    | some m => simp [Contains, h] at hv
  have hsplit := Split_sep_gen v (FormatInt (t : Int)) hI hl (FormatInt_no_hash t)
  have hts : timestampOf (v ++ SEPARATOR ++ FormatInt (t : Int)) =
      some (min (t : Int) maxInt) := by
    rw [timestampOf, hsplit]
    simp [index, Atoi_FormatInt]
  have hval : valueOf (v ++ SEPARATOR ++ FormatInt (t : Int)) = some v := by
    rw [valueOf, hsplit]
    rfl
  have hup := UpsertElement_eq CreateLWWElementSet
    (CreatePayload k (v ++ SEPARATOR ++ FormatInt (t : Int)) op c) inv_empty ⟨_, hts⟩
  have hinv := inv_upsert CreateLWWElementSet
    (CreatePayload k (v ++ SEPARATOR ++ FormatInt (t : Int)) op c) inv_empty ⟨_, hts⟩
  obtain ⟨r, hr, hlk⟩ := view_spec _ hinv
  have hk : (CreatePayload k (v ++ SEPARATOR ++ FormatInt (t : Int)) op c).key = k := rfl
  have hpv : (CreatePayload k (v ++ SEPARATOR ++ FormatInt (t : Int)) op c).val =
      v ++ SEPARATOR ++ FormatInt (t : Int) := rfl
  have he : CreateLWWElementSet.addOperations.lookup k = none := AList.lookup_empty k
  have hadd : (CreateLWWElementSet.addOperations.insert k
      (pick (CreateLWWElementSet.addOperations.lookup k)
        (v ++ SEPARATOR ++ FormatInt (t : Int)))).lookup k =
      some (v ++ SEPARATOR ++ FormatInt (t : Int)) := by
    rw [AList.lookup_insert, he]
    rfl
  rw [hk, hpv] at hup hinv hlk
  refine ⟨_, r, v ++ SEPARATOR ++ FormatInt (t : Int), hup, hr, ?_, hadd, hts, fun hb => ?_⟩
  · rw [hlk k]
    show viewAt ((CreateLWWElementSet.addOperations.insert k _).lookup k)
      (CreateLWWElementSet.removeOperations.lookup k) = some v
    rw [hadd]
    have hrm : CreateLWWElementSet.removeOperations.lookup k = none := AList.lookup_empty k
    rw [hrm]
    exact hval
  · rw [hts, maxInt_eq]
    norm_num at hb
    congr 1
    omega

/-- C20, witness: the value `a#b` (which holds a `#` but no separator and does not end in
`#`) at timestamp 12. -/
theorem C20_encoding_round_trip_witness :
    ∃ s r e, UpsertElement CreateLWWElementSet
        (CreatePayload ['k'] (['a', '#', 'b'] ++ SEPARATOR ++ FormatInt ((12 : Nat) : Int))
          ADD ['c']) = some s ∧
      ViewElements s = some r ∧ r.lookup ['k'] = some ['a', '#', 'b'] ∧
      s.addOperations.lookup ['k'] = some e ∧
      timestampOf e = some (min ((12 : Nat) : Int) maxInt) ∧
      (12 < 2 ^ 63 → timestampOf e = some ((12 : Nat) : Int)) :=
  C20_encoding_round_trip ['k'] ['a', '#', 'b'] ['c'] ADD 12 (by decide) (by decide)

end Crdt
